import Mathlib

/-!
Verification of the path-generation core of `pipelib.py`.

The Python code is shallowly embedded as follows.

* A grid cell `(i, j)` is a pair of integers (`Cell`).
* The injected `random.Random` source is modelled by `RandS`, a stream of
  natural-number draws: each primitive query (`_randbelow(n)`, used by
  `randrange`, `choice`, `shuffle`, `randint`) consumes one draw and reduces
  it modulo its bound.  Quantifying over all streams quantifies over all
  behaviours of the random source.
* Python dicts with insertion-order semantics (`adj` is a total dict over the
  grid initialised to `[]`, `strandi` grows by fresh-key insertion only) are
  modelled by a total function `Cell → List Cell` and an association list
  `List (Cell × Nat)` respectively.
* `while` loops are modelled with explicit fuel returning `Option`;
  separate theorems show the chosen fuel always suffices, and that the
  runtime assertions (`assert (i, j) in strandi`, list destructuring in
  `cleanse`, indexing `strands[...]`) never fail, by making each the `none`
  case of the corresponding step function.
* The float quality score `len(path) ** 1.5` is modelled exactly over the
  reals, so `_quality` and the final `max(..., key=_quality)` are
  noncomputable; everything upstream of the final selection is executable.
-/

open scoped List

/-- A grid cell, `(row, column)`, mirroring the Python tuples `(i, j)`. -/
abbrev Cell : Type := ℤ × ℤ

/-- The random source: the stream of pending draws of `_randbelow`.
An exhausted stream keeps yielding `0`. -/
abbrev RandS : Type := List ℕ

/-- Consume one raw draw from the stream. -/
def nextNat (g : RandS) : ℕ × RandS := (g.headD 0, g.tail)

/-- `rand.randrange(n)` / `_randbelow(n)`: a draw reduced modulo `n`. -/
def randrange (g : RandS) (n : ℕ) : ℕ × RandS :=
  let p := nextNat g
  (p.1 % n, p.2)

/-- Swap the entries at positions `i` and `j` of a list
(`seq[i], seq[j] = seq[j], seq[i]`); out-of-range indices leave it unchanged. -/
def listSwap {α : Type _} (l : List α) (i j : ℕ) : List α :=
  match l[i]?, l[j]? with
  | some a, some b => (l.set i b).set j a
  | _, _ => l

/-- `randpop(rand, seq)`: pick a uniformly random position, swap it to the
end and pop it.  `none` on the empty list (the `ValueError` branch). -/
def randpop {α : Type _} (g : RandS) (l : List α) : Option (α × List α × RandS) :=
  match l with
  | [] => none
  | a :: tl =>
    let L := a :: tl
    let p := randrange g L.length
    some (L.getD p.1 a, (listSwap L p.1 (L.length - 1)).dropLast, p.2)

/-- The loop body sequence of `random.Random.shuffle`: for
`i = n-1, n-2, ..., 1` draw `j = _randbelow(i+1)` and swap positions `i, j`.
The argument counts the first index to process. -/
def pyShuffleAux {α : Type _} : ℕ → List α → RandS → List α × RandS
  | 0, l, g => (l, g)
  | i + 1, l, g =>
    let p := randrange g (i + 2)
    pyShuffleAux i (listSwap l (i + 1) p.1) p.2

/-- `rand.shuffle(seq)` (and hence `shuffled(rand, seq)`). -/
def pyShuffle {α : Type _} (g : RandS) (l : List α) : List α × RandS :=
  pyShuffleAux (l.length - 1) l g

/-- `rand.choice(seq)`: `seq[_randbelow(len(seq))]`; `none` on empty input. -/
def pyChoice {α : Type _} (g : RandS) (l : List α) : Option (α × RandS) :=
  match l with
  | [] => none
  | a :: tl =>
    let L := a :: tl
    let p := randrange g L.length
    some (L.getD p.1 a, p.2)

/-- `dist(i1, j1, i2, j2)`: Manhattan distance. -/
def dist (i1 j1 i2 j2 : ℤ) : ℤ := |i1 - i2| + |j1 - j2|

/-- `DIJS`: the four cardinal direction vectors, in source order. -/
def DIJS : List (ℤ × ℤ) := [(-1, 0), (0, 1), (1, 0), (0, -1)]

/-- Two cells are 4-directionally adjacent: their difference is a `DIJS`
vector. -/
def Adjacent (a b : Cell) : Prop := (b.1 - a.1, b.2 - a.2) ∈ DIJS

instance : DecidablePred fun p : Cell × Cell => Adjacent p.1 p.2 := by
  intro p; unfold Adjacent; infer_instance

instance (a b : Cell) : Decidable (Adjacent a b) := by
  unfold Adjacent; infer_instance

/-- `DifficultySettings`, with the source's field names.  `pathl` and `distl`
are kept as integers because Python subtracts them from lengths. -/
structure DifficultySettings where
  r : ℕ
  c : ℕ
  endcl : ℕ
  pathl : ℤ
  distl : ℤ
  attemptc : ℕ

/-- `[(i, j) for i in range(r) for j in range(c)]`, row-major. -/
def gridCells (r c : ℕ) : List Cell :=
  (List.range r).flatMap fun i : ℕ =>
    (List.range c).map fun j : ℕ => (((i : ℕ) : ℤ), ((j : ℕ) : ℤ))

/-- First-match lookup in the association list modelling the dict `strandi`. -/
def dictLookup (d : List (Cell × ℕ)) (cell : Cell) : Option ℕ :=
  match d with
  | [] => none
  | p :: rest => if p.1 = cell then some p.2 else dictLookup rest cell

/-- The unassigned in-grid 4-neighbours of `(i, j)`, generated in `DIJS`
order (the `good_neighbors` inner generator). -/
def goodNeighbors (r c : ℕ) (strandi : List (Cell × ℕ)) (cell : Cell) : List Cell :=
  DIJS.filterMap fun d =>
    let n : Cell := (cell.1 + d.1, cell.2 + d.2)
    if 0 ≤ n.1 ∧ n.1 < (r : ℤ) ∧ 0 ≤ n.2 ∧ n.2 < (c : ℤ) ∧ dictLookup strandi n = none
    then some n else none

/-- State of the strand-growth inner loop. -/
structure GrowState where
  adj : Cell → List Cell
  strands : List (List Cell)
  strandi : List (Cell × ℕ)
  frontier : List Cell
  g : RandS

/-- One iteration of the inner `while seeds:` loop (for nonempty frontier):
pop a random frontier cell, and if it has an unassigned neighbour, attach a
random one to its strand.  `none` models the failure of `randpop`'s
nonemptiness check, of `assert (i, j) in strandi`, or of the list indexing
`strands[strandi[ni, nj]]`. -/
def growStep (st : DifficultySettings) (gs : GrowState) : Option GrowState :=
  (randpop gs.g gs.frontier).bind fun pf =>
    let cell := pf.1
    let frontier1 := pf.2.1
    let g1 := pf.2.2
    match dictLookup gs.strandi cell with
    | none => none
    | some k =>
      let neighs := goodNeighbors st.r st.c gs.strandi cell
      match neighs with
      | [] => some ⟨gs.adj, gs.strands, gs.strandi, frontier1, g1⟩
      | _ :: _ =>
        (pyChoice g1 neighs).bind fun pc =>
          let nc := pc.1
          let g2 := pc.2
          if k < gs.strands.length then
            let adj1 : Cell → List Cell := fun z =>
              if z = cell then gs.adj cell ++ [nc]
              else if z = nc then gs.adj nc ++ [cell]
              else gs.adj z
            some ⟨adj1, gs.strands.set k (gs.strands.getD k [] ++ [nc]),
                  gs.strandi ++ [(nc, k)], frontier1 ++ [nc], g2⟩
          else none

/-- The fuelled inner `while seeds:` loop. -/
def growLoop (st : DifficultySettings) : ℕ → GrowState → Option GrowState
  | 0, gs => if gs.frontier = [] then some gs else none
  | fuel + 1, gs =>
    if gs.frontier = [] then some gs
    else (growStep st gs).bind (growLoop st fuel)

/-- State of the outer strand-building loop. -/
structure BuildState where
  adj : Cell → List Cell
  strands : List (List Cell)
  strandi : List (Cell × ℕ)
  g : RandS

/-- `for i, j in seeds: strandi[i, j] = len(strands); strands.append([(i, j)])`. -/
def doSeeds : List Cell → List (List Cell) → List (Cell × ℕ) →
    List (List Cell) × List (Cell × ℕ)
  | [], strands, strandi => (strands, strandi)
  | s :: rest, strands, strandi =>
    doSeeds rest (strands ++ [[s]]) (strandi ++ [(s, strands.length)])

/-- One round of the outer `while len(strandi) < r * c:` loop: shuffle the
unassigned cells, seed up to `endcl` new strands, run the growth loop over
the doubled seed frontier, then prune length-1 strands. -/
def roundStep (st : DifficultySettings) (s : BuildState) : Option BuildState :=
  let unass := (gridCells st.r st.c).filter fun cell =>
    (dictLookup s.strandi cell).isNone
  let sh := pyShuffle s.g unass
  let seeds := sh.1.take st.endcl
  let seeded := doSeeds seeds s.strands s.strandi
  let frontier := seeds ++ seeds
  (growLoop st (frontier.length + 2 * (st.r * st.c))
      ⟨s.adj, seeded.1, seeded.2, frontier, sh.2⟩).map fun gs =>
    ⟨gs.adj, gs.strands.filter fun t => 1 < t.length, gs.strandi, gs.g⟩

/-- The fuelled outer loop. -/
def buildLoop (st : DifficultySettings) : ℕ → BuildState → Option BuildState
  | 0, s => if s.strandi.length < st.r * st.c then none else some s
  | fuel + 1, s =>
    if s.strandi.length < st.r * st.c then (roundStep st s).bind (buildLoop st fuel)
    else some s

/-- The strand-building phase of `_try_generating_paths`, started from the
empty state; fuel `r * c` rounds always suffices (proved below). -/
def buildStrands (st : DifficultySettings) (g : RandS) : Option BuildState :=
  buildLoop st (st.r * st.c) ⟨fun _ => [], [], [], g⟩

/-- The walk of `cleanse`: starting from `seq = deque([scell, scell])`,
repeatedly append the unique element of `{*adj[seq[-1]]} - {seq[-2]}` until
the last element is `ecell`.  `none` models fuel exhaustion or failure of the
single-element destructuring `[ccell] = ...`. -/
def walkAux (adj : Cell → List Cell) (ecell : Cell) :
    ℕ → Cell → Cell → List Cell → Option (List Cell)
  | 0, _, _, _ => none
  | fuel + 1, prev, last, acc =>
    if last = ecell then some acc
    else
      match ((adj last).filter fun x => x ≠ prev).dedup with
      | [c] => walkAux adj ecell fuel last c (acc ++ [c])
      | _ => none

/-- The full walk from `scell`, including the duplicated start cell. -/
def walkFrom (adj : Cell → List Cell) (scell ecell : Cell) (fuel : ℕ) :
    Option (List Cell) :=
  walkAux adj ecell fuel scell scell [scell, scell]

/-- The `for _ in range(ct)` trim loop: each unit pops the front on a
truthy `rand.randrange(2)` draw, else the back. -/
def trimLoop : ℕ → List Cell → RandS → List Cell × RandS
  | 0, l, g => (l, g)
  | n + 1, l, g =>
    let p := randrange g 2
    trimLoop n (if p.1 ≠ 0 then l.tail else l.dropLast) p.2

/-- The trimming tail of `cleanse`, applied to the walk sequence `seq`:
`ct = min(len(seq) - distl, 2)`; if positive, redrawn as
`randint(0, ct)`; `ct` trim units each remove a random end; finally one
cell is unconditionally removed from the front. -/
def cleanseAfterWalk (st : DifficultySettings) (g : RandS)
    (seq : List Cell) : List Cell × RandS :=
  if 0 < min ((seq.length : ℤ) - st.distl) 2 then
    let p := randrange g ((min ((seq.length : ℤ) - st.distl) 2).toNat + 1)
    let tr := trimLoop p.1 seq p.2
    (tr.1.tail, tr.2)
  else
    let tr := trimLoop (min ((seq.length : ℤ) - st.distl) 2).toNat seq g
    (tr.1.tail, tr.2)

/-- `cleanse(strand)`.  `none` models failure of the two-element
destructuring `[scell, ecell] = ...` or of the walk. -/
def cleanse (st : DifficultySettings) (adj : Cell → List Cell)
    (strand : List Cell) (g : RandS) : Option (List Cell × RandS) :=
  match strand.filter fun cell => (adj cell).length = 1 with
  | [scell, ecell] =>
    (walkFrom adj scell ecell (strand.length + 1)).map (cleanseAfterWalk st g)
  | _ => none

/-- Stable insertion (from the left) into a descending-by-length list:
placed after every element of at least its length. -/
def insertLenDesc (a : List Cell) : List (List Cell) → List (List Cell)
  | [] => [a]
  | b :: l => if a.length ≤ b.length then b :: insertLenDesc a l else a :: b :: l

/-- `strands.sort(key=len, reverse=True)`: the stable descending-by-length
sort (Python's sort is stable; any stable sort with the same key computes the
same list). -/
def sortLenDesc (l : List (List Cell)) : List (List Cell) :=
  l.foldl (fun acc x => insertLenDesc x acc) []

/-- `[cleanse(strand) for strand in ...]` with the random source threaded
left to right, as the generator inside `shuffled` evaluates it. -/
def cleanseAll (st : DifficultySettings) (adj : Cell → List Cell) :
    List (List Cell) → RandS → Option (List (List Cell) × RandS)
  | [], g => some ([], g)
  | s :: rest, g =>
    (cleanse st adj s g).bind fun pr =>
      (cleanseAll st adj rest pr.2).map fun qr => (pr.1 :: qr.1, qr.2)

/-- `_try_generating_paths(settings, rand)`: build strands, shuffle them,
stable-sort by descending length, cleanse the first `endcl`, and shuffle the
resulting paths. -/
def tryGeneratingPaths (st : DifficultySettings) (g : RandS) :
    Option (List (List Cell) × RandS) :=
  (buildStrands st g).bind fun bs =>
    let sh := pyShuffle bs.g bs.strands
    let sorted := sortLenDesc sh.1
    (cleanseAll st bs.adj (sorted.take st.endcl) sh.2).map fun pr =>
      pyShuffle pr.2 pr.1

/-- `_acceptable(settings, paths)`.  For the empty path (on which Python
would only evaluate the distance after the length conjunct already failed)
the endpoints default to `(0, 0)`. -/
def acceptable (st : DifficultySettings) (paths : List (List Cell)) : Bool :=
  paths.all fun path =>
    decide (st.pathl ≤ (path.length : ℤ)) &&
      decide (st.distl ≤ dist (path.headD (0, 0)).1 (path.headD (0, 0)).2
        (path.getLastD (0, 0)).1 (path.getLastD (0, 0)).2)

/-- `_quality(paths)`: the sum of `len(path) ** 1.5`, modelled exactly over
the reals. -/
noncomputable def quality (paths : List (List Cell)) : ℝ :=
  (paths.map fun path => ((path.length : ℝ)) ^ ((3 : ℝ) / 2)).sum

/-- The sequence of attempts `_try_generating_paths` produces over `fuel`
calls (accepted and rejected alike), in production order. -/
def attemptStream (st : DifficultySettings) : ℕ → RandS → List (List (List Cell))
  | 0, _ => []
  | fuel + 1, g =>
    match tryGeneratingPaths st g with
    | none => []
    | some pr => pr.1 :: attemptStream st fuel pr.2

/-- `islice(_generate_acceptable_paths(...), need)`: keep generating attempts,
retaining the acceptable ones, until `need` have been collected; `none` when
the fuel (bound on total attempts) runs out first. -/
def collectAcceptable (st : DifficultySettings) :
    ℕ → ℕ → RandS → Option (List (List (List Cell)) × RandS)
  | _, 0, g => some ([], g)
  | 0, _ + 1, _ => none
  | fuel + 1, need + 1, g =>
    (tryGeneratingPaths st g).bind fun pr =>
      if acceptable st pr.1 then
        (collectAcceptable st fuel need pr.2).map fun qr => (pr.1 :: qr.1, qr.2)
      else collectAcceptable st fuel (need + 1) pr.2

open Classical in
/-- Python's `max(xs, key=f)`: the first element with maximal key; `none` on
an empty list (the `ValueError` branch). -/
noncomputable def pymaxBy {α : Type _} (f : α → ℝ) : List α → Option α
  | [] => none
  | a :: l => some (l.foldl (fun best x => if f best < f x then x else best) a)

/-- `generate_paths(settings, rand)`: the best of the first `attemptc`
acceptable attempts, with an explicit bound `fuel` on the total number of
attempts tried (the Python loop has no such bound and may diverge). -/
noncomputable def generate_paths (st : DifficultySettings) (fuel : ℕ) (g : RandS) :
    Option (List (List Cell)) :=
  (collectAcceptable st fuel st.attemptc g).bind fun pr => pymaxBy quality pr.1

/-- A tiny sample difficulty (1 × 2 grid, one endpoint pair, one attempt)
used to instantiate the theorems below on concrete runs. -/
def stW : DifficultySettings := ⟨1, 2, 1, 1, 1, 1⟩

/-- A 1 × 3 sample difficulty requesting two endpoint pairs per round. -/
def stW3 : DifficultySettings := ⟨1, 3, 2, 1, 1, 1⟩

/-- The adjacency map of the two-cell path `(0,0) — (0,1)`. -/
def adjW : Cell → List Cell := fun z =>
  if z = ((0 : ℤ), (0 : ℤ)) then [((0 : ℤ), (1 : ℤ))]
  else if z = ((0 : ℤ), (1 : ℤ)) then [((0 : ℤ), (0 : ℤ))]
  else []

/-! ### Lemmas about the random-source primitives -/

theorem set_getElem?_eq {α : Type _} {l : List α} {i : ℕ} {a : α}
    (h : l[i]? = some a) : l.set i a = l := by
  obtain ⟨hi, ha⟩ := List.getElem?_eq_some.mp h
  rw [List.set_eq_take_cons_drop a hi]
  conv_rhs => rw [← List.take_append_drop i l, List.drop_eq_getElem_cons hi, ha]

theorem set_append_left {α : Type _} :
    ∀ (l₁ l₂ : List α) (i : ℕ) (v : α), i < l₁.length →
      (l₁ ++ l₂).set i v = l₁.set i v ++ l₂
  | [], _, _, _, h => by simp at h
  | _ :: _, l₂, 0, v, _ => rfl
  | a :: l₁, l₂, i + 1, v, h => by
    simp only [List.cons_append, List.set_cons_succ]
    rw [set_append_left l₁ l₂ i v (by simpa using h)]

theorem set_set_perm_lt {α : Type _} {l : List α} {i j : ℕ} {a b : α}
    (hij : i < j) (hi : l[i]? = some a) (hj : l[j]? = some b) :
    List.Perm ((l.set i b).set j a) l := by
  obtain ⟨hjl, hjb⟩ := List.getElem?_eq_some.mp hj
  have hti : (l.take j)[i]? = some a := by
    rw [List.getElem?_take, if_pos hij]; exact hi
  obtain ⟨htil, htia⟩ := List.getElem?_eq_some.mp hti
  have hjlen : (l.take j).length = j := by
    simp [List.length_take]; omega
  rw [List.set_comm _ _ _ (Nat.ne_of_lt hij),
    List.set_eq_take_cons_drop a hjl,
    set_append_left _ _ _ _ (by omega),
    List.set_eq_take_cons_drop b htil]
  conv_rhs => rw [← List.take_append_drop j l, List.drop_eq_getElem_cons hjl, hjb,
    ← List.take_append_drop i (l.take j), List.drop_eq_getElem_cons htil, htia]
  rw [List.append_assoc, List.append_assoc]
  refine List.Perm.append_left _ ?_
  simp only [List.cons_append]
  calc b :: ((l.take j).drop (i + 1) ++ a :: l.drop (j + 1)) ~
      b :: (a :: ((l.take j).drop (i + 1) ++ l.drop (j + 1))) :=
        List.Perm.cons b List.perm_middle
    _ ~ a :: (b :: ((l.take j).drop (i + 1) ++ l.drop (j + 1))) := List.Perm.swap a b _
    _ ~ a :: ((l.take j).drop (i + 1) ++ b :: l.drop (j + 1)) :=
      List.Perm.cons a List.perm_middle.symm

theorem set_set_perm {α : Type _} {l : List α} {i j : ℕ} {a b : α}
    (hi : l[i]? = some a) (hj : l[j]? = some b) :
    List.Perm ((l.set i b).set j a) l := by
  rcases Nat.lt_trichotomy i j with h | h | h
  · exact set_set_perm_lt h hi hj
  · subst h
    have hab : a = b := by rw [hi] at hj; exact Option.some_inj.mp hj
    subst hab
    rw [List.set_set, set_getElem?_eq hi]
  · rw [List.set_comm _ _ _ (Nat.ne_of_gt h)]
    exact set_set_perm_lt h hj hi

theorem listSwap_perm {α : Type _} (l : List α) (i j : ℕ) :
    List.Perm (listSwap l i j) l := by
  unfold listSwap
  rcases h₁ : l[i]? with _ | a <;> rcases h₂ : l[j]? with _ | b <;>
    simp only [h₁, h₂] <;>
    first
      | exact List.Perm.refl l
      | exact set_set_perm h₁ h₂

theorem listSwap_length {α : Type _} (l : List α) (i j : ℕ) :
    (listSwap l i j).length = l.length :=
  (listSwap_perm l i j).length_eq

theorem listSwap_last {α : Type _} (l : List α) (i : ℕ) (hi : i < l.length) :
    (listSwap l i (l.length - 1))[l.length - 1]? = some l[i] := by
  unfold listSwap
  rw [List.getElem?_eq_getElem hi,
    List.getElem?_eq_getElem (show l.length - 1 < l.length by omega)]
  exact List.getElem?_set_eq_of_lt _ (by simp; omega)

theorem eq_dropLast_append {α : Type _} {l : List α} {x : α} (h : l ≠ [])
    (hx : l[l.length - 1]? = some x) : l = l.dropLast ++ [x] := by
  have hlen : l.length - 1 < l.length := by
    cases l
    · exact absurd rfl h
    · simp
  have h2 : l.getLast h = x := by
    rw [List.getLast_eq_getElem]
    have h3 := List.getElem?_eq_getElem hlen
    exact Option.some_inj.mp (h3.symm.trans hx)
  rw [← h2]
  exact (List.dropLast_append_getLast h).symm

theorem randpop_isSome {α : Type _} (g : RandS) {l : List α} (h : l ≠ []) :
    (randpop g l).isSome := by
  cases l with
  | nil => exact absurd rfl h
  | cons a tl => rfl

/-- The popped value together with the remaining list is a permutation of the
input: `randpop` removes exactly one occurrence. -/
theorem randpop_perm {α : Type _} {g : RandS} {l : List α} {v : α}
    {l' : List α} {g' : RandS} (h : randpop g l = some (v, l', g')) :
    List.Perm (v :: l') l := by
  cases l with
  | nil => exact absurd h (by simp [randpop])
  | cons a tl =>
    simp only [randpop, Option.some.injEq, Prod.mk.injEq] at h
    obtain ⟨hv, hl', -⟩ := h
    have hidxlt : (randrange g (a :: tl).length).1 < (a :: tl).length :=
      Nat.mod_lt _ (by simp)
    have hlastlt : (a :: tl).length - 1 < (a :: tl).length := by simp
    have hSlen : (listSwap (a :: tl) (randrange g (a :: tl).length).1
        ((a :: tl).length - 1)).length = (a :: tl).length :=
      listSwap_length _ _ _
    have hSne : listSwap (a :: tl) (randrange g (a :: tl).length).1
        ((a :: tl).length - 1) ≠ [] := by
      intro h0
      rw [h0] at hSlen
      simp at hSlen
    have hS : listSwap (a :: tl) (randrange g (a :: tl).length).1
          ((a :: tl).length - 1) =
        (listSwap (a :: tl) (randrange g (a :: tl).length).1
          ((a :: tl).length - 1)).dropLast ++
          [(a :: tl)[(randrange g (a :: tl).length).1]] := by
      refine eq_dropLast_append hSne ?_
      rw [hSlen]
      exact listSwap_last _ _ hidxlt
    have hgetD : (a :: tl).getD (randrange g (a :: tl).length).1 a =
        (a :: tl)[(randrange g (a :: tl).length).1] :=
      List.getD_eq_getElem _ _ hidxlt
    calc v :: l' ~ l' ++ [v] := (List.perm_append_singleton v l').symm
      _ = listSwap (a :: tl) (randrange g (a :: tl).length).1 ((a :: tl).length - 1) := by
        rw [← hl', ← hv, hgetD]
        exact hS.symm
      _ ~ a :: tl := listSwap_perm _ _ _

theorem pyShuffleAux_perm {α : Type _} :
    ∀ (n : ℕ) (l : List α) (g : RandS), List.Perm (pyShuffleAux n l g).1 l
  | 0, _, _ => List.Perm.refl _
  | i + 1, l, g =>
    (pyShuffleAux_perm i _ _).trans (listSwap_perm l (i + 1) _)

theorem pyShuffle_perm {α : Type _} (g : RandS) (l : List α) :
    List.Perm (pyShuffle g l).1 l :=
  pyShuffleAux_perm _ l g

theorem pyShuffle_length {α : Type _} (g : RandS) (l : List α) :
    (pyShuffle g l).1.length = l.length :=
  (pyShuffle_perm g l).length_eq

theorem pyChoice_mem {α : Type _} {g : RandS} {l : List α} {v : α} {g' : RandS}
    (h : pyChoice g l = some (v, g')) : v ∈ l := by
  cases l with
  | nil => exact absurd h (by simp [pyChoice])
  | cons a tl =>
    simp only [pyChoice, Option.some.injEq, Prod.mk.injEq] at h
    obtain ⟨hv, -⟩ := h
    have hidxlt : (randrange g (a :: tl).length).1 < (a :: tl).length :=
      Nat.mod_lt _ (by simp)
    rw [← hv, List.getD_eq_getElem _ _ hidxlt]
    exact List.getElem_mem hidxlt

theorem pyChoice_isSome {α : Type _} (g : RandS) {l : List α} (h : l ≠ []) :
    (pyChoice g l).isSome := by
  cases l with
  | nil => exact absurd rfl h
  | cons a tl => rfl

/-! ### Lemmas about `dictLookup` and `gridCells` -/

theorem dictLookup_eq_none {d : List (Cell × ℕ)} {cell : Cell} :
    dictLookup d cell = none ↔ cell ∉ d.map Prod.fst := by
  induction d with
  | nil => simp [dictLookup]
  | cons p rest ih =>
    simp only [dictLookup, List.map_cons, List.mem_cons]
    by_cases h : p.1 = cell
    · rw [if_pos h]
      constructor
      · intro h0
        exact Option.noConfusion h0
      · intro h0
        exact absurd (Or.inl h.symm) h0
    · rw [if_neg h, ih]
      constructor
      · intro hn hmem
        rcases hmem with h1 | h2
        · exact h h1.symm
        · exact hn h2
      · intro hn hmem
        exact hn (Or.inr hmem)

theorem dictLookup_isSome_of_mem {d : List (Cell × ℕ)} {cell : Cell}
    (h : cell ∈ d.map Prod.fst) : dictLookup d cell ≠ none := by
  intro h0
  exact dictLookup_eq_none.mp h0 h

theorem dictLookup_mem {d : List (Cell × ℕ)} {cell : Cell} {k : ℕ}
    (h : dictLookup d cell = some k) : (cell, k) ∈ d := by
  induction d with
  | nil => simp [dictLookup] at h
  | cons p rest ih =>
    by_cases hp : p.1 = cell
    · simp only [dictLookup, if_pos hp, Option.some.injEq] at h
      have hpk : p = (cell, k) := by
        obtain ⟨p1, p2⟩ := p
        simp only [Prod.mk.injEq]
        exact ⟨hp, h⟩
      rw [← hpk]
      exact List.mem_cons_self p rest
    · simp only [dictLookup, if_neg hp] at h
      exact List.mem_cons_of_mem _ (ih h)

theorem dictLookup_append_left {d₁ d₂ : List (Cell × ℕ)} {cell : Cell} {k : ℕ}
    (h : dictLookup d₁ cell = some k) :
    dictLookup (d₁ ++ d₂) cell = some k := by
  induction d₁ with
  | nil => simp [dictLookup] at h
  | cons p rest ih =>
    by_cases hp : p.1 = cell
    · simp only [dictLookup, if_pos hp, Option.some.injEq] at h ⊢
      exact h
    · simp only [dictLookup, if_neg hp] at h ⊢
      exact ih h

theorem dictLookup_append_right {d₁ d₂ : List (Cell × ℕ)} {cell : Cell}
    (h : dictLookup d₁ cell = none) :
    dictLookup (d₁ ++ d₂) cell = dictLookup d₂ cell := by
  induction d₁ with
  | nil => rfl
  | cons p rest ih =>
    by_cases hp : p.1 = cell
    · rw [dictLookup, if_pos hp] at h
      exact Option.noConfusion h
    · rw [dictLookup, if_neg hp] at h
      rw [List.cons_append, dictLookup, if_neg hp]
      exact ih h

theorem dictLookup_isSome_append {d₁ d₂ : List (Cell × ℕ)} {cell : Cell}
    (h : dictLookup d₁ cell ≠ none) :
    dictLookup (d₁ ++ d₂) cell = dictLookup d₁ cell := by
  rcases ho : dictLookup d₁ cell with _ | k
  · exact absurd ho h
  · exact dictLookup_append_left ho

theorem mem_gridCells {r c : ℕ} {cell : Cell} :
    cell ∈ gridCells r c ↔
      0 ≤ cell.1 ∧ cell.1 < (r : ℤ) ∧ 0 ≤ cell.2 ∧ cell.2 < (c : ℤ) := by
  obtain ⟨x, y⟩ := cell
  constructor
  · intro h
    simp only [gridCells, List.mem_flatMap, List.mem_map, List.mem_range] at h
    obtain ⟨i, hi, j, hj, hx⟩ := h
    rw [Prod.mk.injEq] at hx
    obtain ⟨hx1, hx2⟩ := hx
    subst hx1
    subst hx2
    omega
  · intro h
    simp only [gridCells, List.mem_flatMap, List.mem_map, List.mem_range]
    refine ⟨x.toNat, by omega, y.toNat, by omega, ?_⟩
    rw [Prod.mk.injEq]
    constructor <;> omega

theorem nodup_gridCells (r c : ℕ) : (gridCells r c).Nodup := by
  unfold gridCells
  rw [List.nodup_flatMap]
  constructor
  · intro i _
    refine (List.nodup_range c).map ?_
    intro a b hab
    rw [Prod.mk.injEq] at hab
    exact_mod_cast hab.2
  · rw [List.pairwise_iff_forall_sublist]
    intro i j hsub
    have hij : i ≠ j := by
      intro h
      subst h
      exact absurd (List.Sublist.nodup hsub (List.nodup_range r)) (by simp)
    rw [Function.onFun, List.disjoint_left]
    rintro ⟨x, y⟩ hx hy
    simp only [List.mem_map, List.mem_range] at hx hy
    obtain ⟨a, ha1, ha2⟩ := hx
    obtain ⟨b, hb1, hb2⟩ := hy
    rw [Prod.mk.injEq] at ha2 hb2
    exact hij (by omega)

theorem length_gridCells (r c : ℕ) : (gridCells r c).length = r * c := by
  unfold gridCells
  rw [List.length_flatMap]
  have h : List.map (List.length ∘ fun i : ℕ =>
      (List.range c).map fun j : ℕ => ((((i : ℕ) : ℤ), ((j : ℕ) : ℤ)) : Cell))
      (List.range r) = List.replicate r c := by
    rw [List.eq_replicate_iff]
    constructor
    · simp
    · intro b hb
      simp only [List.mem_map, Function.comp] at hb
      obtain ⟨i, -, hi⟩ := hb
      rw [← hi]
      simp
  rw [h, List.sum_replicate, smul_eq_mul]

/-! ### Path-shaped adjacency structures

A strand's adjacency subgraph is path-shaped: there is an ordering `ord` of
its cells in which each cell's `adj` list is (a permutation of) its
neighbours along `ord`.  This is the invariant the builder maintains and the
extractor consumes. -/

/-- The neighbours of `a` along the ordered path `ord`: one entry for each
consecutive pair of `ord` containing `a`. -/
def ordNbrs : List Cell → Cell → List Cell
  | [], _ => []
  | [_], _ => []
  | x :: y :: rest, a =>
    ((if x = a then [y] else []) ++ if y = a then [x] else []) ++
      ordNbrs (y :: rest) a

/-- `ord` lists the cells of a strand in path order and `adj` restricted to
them is exactly the along-path neighbour relation. -/
def IsPathOrd (adj : Cell → List Cell) (ord : List Cell) : Prop :=
  ord.Nodup ∧ ∀ a ∈ ord, List.Perm (adj a) (ordNbrs ord a)

theorem ordNbrs_not_mem : ∀ {l : List Cell} {a : Cell}, a ∉ l → ordNbrs l a = []
  | [], _, _ => rfl
  | [_], _, _ => rfl
  | x :: y :: rest, a, h => by
    have hx : x ≠ a := fun hh => h (hh ▸ List.mem_cons_self x (y :: rest))
    have hy : y ≠ a := fun hh => h (hh ▸ List.mem_cons_of_mem x (List.mem_cons_self y rest))
    have hrest : a ∉ y :: rest := fun hh => h (List.mem_cons_of_mem x hh)
    simp only [ordNbrs, if_neg hx, if_neg hy, ordNbrs_not_mem hrest, List.append_nil]

theorem ordNbrs_mem : ∀ {l : List Cell} {a b : Cell}, b ∈ ordNbrs l a → b ∈ l
  | [], _, _, h => by simp [ordNbrs] at h
  | [_], _, _, h => by simp [ordNbrs] at h
  | x :: y :: rest, a, b, h => by
    simp only [ordNbrs, List.mem_append] at h
    rcases h with (h | h) | h
    · split at h
      · simp only [List.mem_singleton] at h
        rw [h]
        exact List.mem_cons_of_mem x (List.mem_cons_self y rest)
      · simp at h
    · split at h
      · simp only [List.mem_singleton] at h
        rw [h]
        exact List.mem_cons_self x (y :: rest)
      · simp at h
    · exact List.mem_cons_of_mem x (ordNbrs_mem h)

/-- The neighbour list of `x` at an explicit position in a duplicate-free
list: the last cell before it and the first cell after it. -/
theorem ordNbrs_eq : ∀ (l₁ : List Cell) (x : Cell) (l₂ : List Cell),
    (l₁ ++ x :: l₂).Nodup →
    ordNbrs (l₁ ++ x :: l₂) x = l₁.getLast?.toList ++ l₂.head?.toList
  | [], x, [], _ => rfl
  | [], x, c :: rest, h => by
    have hcx : c ≠ x := by
      simp only [List.nil_append, List.nodup_cons] at h
      intro hh
      exact h.1 (hh ▸ List.mem_cons_self c rest)
    have hxa : x ∉ c :: rest := by
      simp only [List.nil_append, List.nodup_cons] at h
      exact h.1
    simp [ordNbrs, if_neg hcx, ordNbrs_not_mem hxa]
  | [d], x, l₂, h => by
    have hdx : d ≠ x := by
      simp only [List.cons_append, List.nodup_cons] at h
      intro hh
      exact h.1 (hh ▸ List.mem_cons_self x l₂)
    have h2 : (([] : List Cell) ++ x :: l₂).Nodup := by
      simp only [List.cons_append, List.nodup_cons] at h
      simpa using h.2
    have := ordNbrs_eq [] x l₂ h2
    simp only [List.nil_append] at this
    simp [ordNbrs, if_neg hdx, this]
  | d :: e :: l₁', x, l₂, h => by
    have hdx : d ≠ x := by
      simp only [List.cons_append, List.nodup_cons] at h
      intro hh
      apply h.1
      rw [hh]
      simp
    have hex : e ≠ x := by
      simp only [List.cons_append, List.nodup_cons] at h
      intro hh
      apply h.2.1
      rw [hh]
      simp
    have h2 : ((e :: l₁') ++ x :: l₂).Nodup := by
      simp only [List.cons_append, List.nodup_cons] at h ⊢
      exact ⟨h.2.1, h.2.2⟩
    have := ordNbrs_eq (e :: l₁') x l₂ h2
    simp only [List.cons_append] at this ⊢
    rw [ordNbrs, if_neg hdx, if_neg hex, this]
    simp [List.getLast?_cons_cons]

theorem ordNbrs_length_le_two {ord : List Cell} (h : ord.Nodup) (a : Cell) :
    (ordNbrs ord a).length ≤ 2 := by
  by_cases ha : a ∈ ord
  · obtain ⟨l₁, l₂, rfl⟩ := List.append_of_mem ha
    rw [ordNbrs_eq l₁ a l₂ h, List.length_append]
    have h1 : l₁.getLast?.toList.length ≤ 1 := by cases l₁.getLast? <;> simp
    have h2 : l₂.head?.toList.length ≤ 1 := by cases l₂.head? <;> simp
    omega
  · rw [ordNbrs_not_mem ha]
    simp

theorem endpoint_of_nbrs_le_one {ord : List Cell} {a : Cell}
    (h : ord.Nodup) (ha : a ∈ ord) (hd : (ordNbrs ord a).length ≤ 1) :
    ord.head? = some a ∨ ord.getLast? = some a := by
  obtain ⟨l₁, l₂, rfl⟩ := List.append_of_mem ha
  rw [ordNbrs_eq l₁ a l₂ h, List.length_append] at hd
  rcases hgl : l₁.getLast? with _ | z
  · left
    rw [List.getLast?_eq_none_iff] at hgl
    subst hgl
    simp
  · right
    rw [hgl] at hd
    simp only [Option.toList_some, List.length_singleton] at hd
    have hh : l₂.head? = none := by
      rcases hh2 : l₂.head? with _ | w
      · rfl
      · rw [hh2] at hd
        simp at hd
    rw [List.head?_eq_none_iff] at hh
    subst hh
    exact List.getLast?_concat _

theorem head?_ne_getLast? {ord : List Cell} (h : ord.Nodup) (h2 : 2 ≤ ord.length)
    {a : Cell} (hh : ord.head? = some a) : ord.getLast? ≠ some a := by
  cases ord with
  | nil => simp at hh
  | cons x tl =>
    cases tl with
    | nil => simp at h2
    | cons y tl2 =>
      simp only [List.head?_cons, Option.some.injEq] at hh
      subst hh
      rw [List.getLast?_cons_cons]
      intro hcon
      have hmem : x ∈ y :: tl2 := List.mem_of_mem_getLast? (by simp [hcon])
      rw [List.nodup_cons] at h
      exact h.1 hmem

theorem nbrs_length_head {ord : List Cell} (h : ord.Nodup) {a : Cell}
    (hh : ord.head? = some a) (h2 : 2 ≤ ord.length) :
    (ordNbrs ord a).length = 1 := by
  cases ord with
  | nil => simp at hh
  | cons x tl =>
    cases tl with
    | nil => simp at h2
    | cons y tl2 =>
      simp only [List.head?_cons, Option.some.injEq] at hh
      subst hh
      have := ordNbrs_eq [] x (y :: tl2) (by simpa using h)
      simp only [List.nil_append] at this
      rw [this]
      simp

theorem nbrs_length_getLast {ord : List Cell} (h : ord.Nodup) {a : Cell}
    (hl : ord.getLast? = some a) (h2 : 2 ≤ ord.length) :
    (ordNbrs ord a).length = 1 := by
  have hmem : a ∈ ord := List.mem_of_mem_getLast? (by simp [hl])
  obtain ⟨l₁, l₂, rfl⟩ := List.append_of_mem hmem
  have hl₂ : l₂ = [] := by
    cases hl₂ : l₂ with
    | nil => rfl
    | cons w t =>
      subst hl₂
      exfalso
      have hz : ∃ z, (w :: t).getLast? = some z := by
        rcases hq : (w :: t).getLast? with _ | z
        · rw [List.getLast?_eq_none_iff] at hq
          exact absurd hq (by simp)
        · exact ⟨z, rfl⟩
      obtain ⟨z, hz⟩ := hz
      have : (l₁ ++ a :: w :: t).getLast? = (w :: t).getLast? := by
        rw [List.getLast?_append, List.getLast?_cons_cons, hz]
        simp
      rw [this] at hl
      have hwmem : a ∈ w :: t := List.mem_of_mem_getLast? (by simp [hl])
      have := List.Nodup.sublist (List.suffix_append l₁ (a :: w :: t)).sublist h
      rw [List.nodup_cons] at this
      exact this.1 hwmem
  subst hl₂
  have hl₁ : l₁ ≠ [] := by
    intro h0
    subst h0
    simp at h2
  rw [ordNbrs_eq l₁ a [] h]
  rcases hgl : l₁.getLast? with _ | z
  · rw [List.getLast?_eq_none_iff] at hgl
    exact absurd hgl hl₁
  · simp

theorem nbrs_length_middle {ord : List Cell} (h : ord.Nodup) {a : Cell}
    (ha : a ∈ ord) (hh : ord.head? ≠ some a) (hl : ord.getLast? ≠ some a) :
    (ordNbrs ord a).length = 2 := by
  obtain ⟨l₁, l₂, rfl⟩ := List.append_of_mem ha
  have hl₁ : l₁ ≠ [] := by
    intro h0
    subst h0
    simp at hh
  have hl₂ : l₂ ≠ [] := by
    intro h0
    subst h0
    exact hl (List.getLast?_concat _)
  rw [ordNbrs_eq l₁ a l₂ h]
  rcases hgl : l₁.getLast? with _ | z
  · rw [List.getLast?_eq_none_iff] at hgl
    exact absurd hgl hl₁
  · rcases hhd : l₂.head? with _ | w
    · rw [List.head?_eq_none_iff] at hhd
      exact absurd hhd hl₂
    · simp

/-- A cell of a path-shaped strand of length at least 2 has exactly one
`adj`-neighbour precisely when it is one of the two ends of the path. -/
theorem adj_length_one_iff {adj : Cell → List Cell} {ord : List Cell}
    (hp : IsPathOrd adj ord) (h2 : 2 ≤ ord.length) {a : Cell} (ha : a ∈ ord) :
    (adj a).length = 1 ↔ (ord.head? = some a ∨ ord.getLast? = some a) := by
  rw [(hp.2 a ha).length_eq]
  constructor
  · intro h1
    exact endpoint_of_nbrs_le_one hp.1 ha (le_of_eq h1)
  · rintro (h | h)
    · exact nbrs_length_head hp.1 h h2
    · exact nbrs_length_getLast hp.1 h h2

/-- Attaching a fresh cell `c` to the head end `x` of a path-shaped strand
keeps it path-shaped, for any adjacency update that appends `c` to `x`'s
list, sets `c`'s list to `[x]`, and leaves every other cell unchanged. -/
theorem isPathOrd_extend {adj adj' : Cell → List Cell} {ord : List Cell}
    {x c : Cell} (hp : IsPathOrd adj ord) (hx : ord.head? = some x)
    (hc : c ∉ ord) (h1 : adj' x = adj x ++ [c]) (h2 : adj' c = [x])
    (h3 : ∀ z, z ≠ x → z ≠ c → adj' z = adj z) :
    IsPathOrd adj' (c :: ord) := by
  obtain ⟨t, hord⟩ : ∃ t, ord = x :: t := by
    cases ord with
    | nil => simp at hx
    | cons y t =>
      simp only [List.head?_cons, Option.some.injEq] at hx
      exact ⟨t, by rw [hx]⟩
  subst hord
  have hcx : c ≠ x := fun hh => hc (hh ▸ List.mem_cons_self x t)
  refine ⟨List.nodup_cons.mpr ⟨hc, hp.1⟩, ?_⟩
  intro a ha
  rcases List.mem_cons.mp ha with rfl | ha
  · rw [h2, ordNbrs, if_pos rfl, if_neg (Ne.symm hcx),
      ordNbrs_not_mem hc]
    simp
  · rcases List.mem_cons.mp ha with rfl | hat
    · rw [h1, ordNbrs, if_neg hcx, if_pos rfl]
      simp only [List.nil_append]
      calc adj a ++ [c] ~ ordNbrs (a :: t) a ++ [c] :=
          (hp.2 a ha).append_right [c]
        _ ~ [c] ++ ordNbrs (a :: t) a := List.perm_append_comm
    · have hax : a ≠ x := by
        intro hh
        subst hh
        exact (List.nodup_cons.mp hp.1).1 hat
      have hac : a ≠ c := fun hh => hc (hh ▸ ha)
      rw [h3 a hax hac, ordNbrs, if_neg (Ne.symm hac), if_neg (Ne.symm hax)]
      simpa using hp.2 a ha

theorem ordNbrs_concat : ∀ (l : List Cell) (y a z : Cell), l.getLast? = some z →
    ordNbrs (l ++ [y]) a =
      ordNbrs l a ++ ((if z = a then [y] else []) ++ if y = a then [z] else [])
  | [], _, _, _, h => by simp at h
  | [w], y, a, z, h => by
    simp only [List.getLast?_singleton, Option.some.injEq] at h
    subst h
    simp [ordNbrs]
  | w :: v :: rest, y, a, z, h => by
    rw [List.getLast?_cons_cons] at h
    have ih := ordNbrs_concat (v :: rest) y a z h
    simp only [List.cons_append] at ih ⊢
    rw [ordNbrs]
    conv_rhs => rw [ordNbrs]
    rw [ih]
    simp only [List.append_assoc]

theorem ordNbrs_reverse_perm : ∀ (l : List Cell) (a : Cell),
    List.Perm (ordNbrs l.reverse a) (ordNbrs l a)
  | [], _ => List.Perm.refl _
  | [_], _ => List.Perm.refl _
  | x :: y :: rest, a => by
    have hrev : (x :: y :: rest).reverse = (y :: rest).reverse ++ [x] := by
      simp
    have hgl : (y :: rest).reverse.getLast? = some y := by
      rw [List.getLast?_reverse]
      rfl
    rw [hrev, ordNbrs_concat _ x a y hgl, ordNbrs]
    have ih := ordNbrs_reverse_perm (y :: rest) a
    calc ordNbrs (y :: rest).reverse a ++
          ((if y = a then [x] else []) ++ if x = a then [y] else []) ~
        ordNbrs (y :: rest) a ++
          ((if y = a then [x] else []) ++ if x = a then [y] else []) :=
          ih.append_right _
      _ ~ ((if y = a then [x] else []) ++ if x = a then [y] else []) ++
          ordNbrs (y :: rest) a := List.perm_append_comm
      _ ~ ((if x = a then [y] else []) ++ if y = a then [x] else []) ++
          ordNbrs (y :: rest) a :=
          List.Perm.append_right _ List.perm_append_comm

theorem isPathOrd_reverse {adj : Cell → List Cell} {ord : List Cell}
    (hp : IsPathOrd adj ord) : IsPathOrd adj ord.reverse := by
  refine ⟨List.nodup_reverse.mpr hp.1, ?_⟩
  intro a ha
  rw [List.mem_reverse] at ha
  exact (hp.2 a ha).trans (ordNbrs_reverse_perm ord a).symm

theorem getLastD_cons_mem {α : Type _} (a : α) (l : List α) (d : α) :
    (a :: l).getLastD d ∈ a :: l := by
  rw [List.getLastD_eq_getLast?, List.getLast?_eq_getLast (a :: l) (by simp)]
  exact List.getLast_mem _

/-- The walk of `cleanse` follows the path order: started anywhere along
`ord` it appends exactly the remaining cells of `ord`. -/
theorem walkAux_spec {adj : Cell → List Cell} {ord : List Cell}
    (hp : IsPathOrd adj ord) :
    ∀ (l₂ l₁ : List Cell) (prev last : Cell) (acc : List Cell) (fuel : ℕ),
      ord = l₁ ++ prev :: last :: l₂ → l₂.length + 1 ≤ fuel →
      walkAux adj (l₂.getLastD last) fuel prev last acc = some (acc ++ l₂)
  | [], l₁, prev, last, acc, fuel, hord, hfuel => by
    obtain ⟨f, rfl⟩ : ∃ f, fuel = f + 1 := ⟨fuel - 1, by omega⟩
    rw [walkAux]
    simp
  | c :: l₂', l₁, prev, last, acc, fuel, hord, hfuel => by
    obtain ⟨f, rfl⟩ : ∃ f, fuel = f + 1 := ⟨fuel - 1, by omega⟩
    have hsub : (prev :: last :: c :: l₂').Nodup :=
      List.Nodup.sublist (hord ▸ List.suffix_append l₁ _).sublist hp.1
    have hlastni : last ∉ c :: l₂' := by
      have := (List.nodup_cons.mp (List.nodup_cons.mp hsub).2)
      exact this.1
    have hecell : (c :: l₂').getLastD last = l₂'.getLastD c :=
      List.getLastD_cons last c l₂'
    have hlast_ne : ¬ last = (c :: l₂').getLastD last := by
      intro hh
      exact hlastni (hh ▸ getLastD_cons_mem c l₂' last)
    have hordalt : ord = (l₁ ++ [prev]) ++ last :: c :: l₂' := by
      rw [hord]
      simp
    have hlastmem : last ∈ ord := by
      rw [hordalt]
      exact List.mem_append_right _ (List.mem_cons_self _ _)
    have hnbrs : List.Perm (adj last) [prev, c] := by
      have hperm := hp.2 last hlastmem
      rw [hordalt, ordNbrs_eq (l₁ ++ [prev]) last (c :: l₂') (hordalt ▸ hp.1)]
        at hperm
      simpa [List.getLast?_concat] using hperm
    have hcprev : ¬ c = prev := by
      intro hh
      have := List.nodup_cons.mp hsub
      exact this.1 (hh ▸ List.mem_cons_of_mem last (List.mem_cons_self c l₂'))
    have hfilter : ((adj last).filter fun x => x ≠ prev) = [c] := by
      have h1 : List.Perm ((adj last).filter fun x => x ≠ prev)
          (([prev, c]).filter fun x => x ≠ prev) := hnbrs.filter _
      have h2 : (([prev, c] : List Cell).filter fun x => x ≠ prev) = [c] := by
        simp [List.filter, hcprev]
      rw [h2] at h1
      exact List.perm_singleton.mp h1
    rw [walkAux, if_neg hlast_ne, hfilter]
    have hded : ([c] : List Cell).dedup = [c] := by simp
    rw [hded]
    have ih := walkAux_spec hp l₂' (l₁ ++ [prev]) last c (acc ++ [c]) f
      (by rw [hord]; simp) (by simp at hfuel ⊢; omega)
    rw [hecell]
    show walkAux adj (l₂'.getLastD c) f last c (acc ++ [c]) = some (acc ++ c :: l₂')
    rw [ih]
    simp

/-- The full walk of `cleanse` on a path-shaped strand: starting from the
head `s` of the path order, it succeeds and returns the start cell (twice,
as the deque is seeded with it twice) followed by the rest of the path. -/
theorem walkFrom_spec {adj : Cell → List Cell} {ord : List Cell}
    (hp : IsPathOrd adj ord) (h2 : 2 ≤ ord.length) {s e : Cell}
    (hs : ord.head? = some s) (he : ord.getLast? = some e) {fuel : ℕ}
    (hfuel : ord.length ≤ fuel) :
    walkFrom adj s e fuel = some (s :: ord) := by
  obtain ⟨c, rest, hord⟩ : ∃ c rest, ord = s :: c :: rest := by
    cases ord with
    | nil => simp at hs
    | cons x tl =>
      cases tl with
      | nil => simp at h2
      | cons y tl2 =>
        simp only [List.head?_cons, Option.some.injEq] at hs
        exact ⟨y, tl2, by rw [hs]⟩
  subst hord
  obtain ⟨f, rfl⟩ : ∃ f, fuel = f + 1 := ⟨fuel - 1, by simp at hfuel; omega⟩
  have hse : ¬ s = e := by
    intro hh
    exact head?_ne_getLast? hp.1 h2 hs (hh ▸ he)
  have hcs : ¬ c = s := by
    intro hh
    have := List.nodup_cons.mp hp.1
    exact this.1 (hh ▸ List.mem_cons_self c rest)
  have hnbrs : List.Perm (adj s) [c] := by
    have hperm := hp.2 s (List.mem_cons_self _ _)
    have heq := ordNbrs_eq [] s (c :: rest) (by simpa using hp.1)
    simp only [List.nil_append] at heq
    rw [heq] at hperm
    simpa using hperm
  have hfilter : ((adj s).filter fun x => x ≠ s) = [c] := by
    have h1 : List.Perm ((adj s).filter fun x => x ≠ s)
        (([c] : List Cell).filter fun x => x ≠ s) := hnbrs.filter _
    have h2f : (([c] : List Cell).filter fun x => x ≠ s) = [c] := by
      simp [List.filter, hcs]
    rw [h2f] at h1
    exact List.perm_singleton.mp h1
  have hecell : rest.getLastD c = e := by
    rw [List.getLast?_cons_cons, List.getLast?_cons] at he
    rw [List.getLastD_eq_getLast?]
    exact Option.some_inj.mp he
  unfold walkFrom
  rw [walkAux, if_neg hse, hfilter]
  have hded : ([c] : List Cell).dedup = [c] := by simp
  rw [hded]
  show walkAux adj e f s c ([s, s] ++ [c]) = some (s :: s :: c :: rest)
  have ih := walkAux_spec hp rest [] s c ([s, s] ++ [c]) f (by simp)
    (by simp at hfuel; omega)
  rw [hecell] at ih
  rw [ih]
  simp

/-! ### Specification of `cleanse` -/

theorem nodup_two_elems {α : Type _} {l : List α} {a b : α} (hab : a ≠ b)
    (hn : l.Nodup) (hmem : ∀ x, x ∈ l ↔ (x = a ∨ x = b)) :
    l = [a, b] ∨ l = [b, a] := by
  have hperm : List.Perm l [a, b] := by
    rw [List.perm_ext_iff_of_nodup hn (by simp [hab])]
    intro x
    rw [hmem x]
    simp
  have hlen : l.length = 2 := hperm.length_eq
  match l, hlen with
  | [x, y], _ =>
    have hx := (hmem x).mp (List.mem_cons_self x [y])
    have hy := (hmem y).mp (List.mem_cons_of_mem x (List.mem_cons_self y []))
    have hxy : x ≠ y := by
      rw [List.nodup_cons] at hn
      intro hh
      exact hn.1 (hh ▸ List.mem_cons_self y [])
    rcases hx with rfl | rfl
    · rcases hy with rfl | rfl
      · exact absurd rfl hxy
      · exact Or.inl rfl
    · rcases hy with rfl | rfl
      · exact Or.inr rfl
      · exact absurd rfl hxy

/-- The endpoint destructuring `[scell, ecell] = [cell for cell in strand if
len(adj[cell]) == 1]` succeeds on a path-shaped strand and yields the two
ends of the path order, in one of the two orders. -/
theorem endpoints_filter {adj : Cell → List Cell} {strand ord : List Cell}
    (hperm : List.Perm strand ord) (hp : IsPathOrd adj ord)
    (h2 : 2 ≤ ord.length) :
    ∃ s e, (strand.filter fun cell => (adj cell).length = 1) = [s, e] ∧
      ((ord.head? = some s ∧ ord.getLast? = some e) ∨
        (ord.head? = some e ∧ ord.getLast? = some s)) := by
  obtain ⟨h, hh⟩ : ∃ h, ord.head? = some h := by
    cases ord with
    | nil => simp at h2
    | cons x tl => exact ⟨x, rfl⟩
  obtain ⟨t, ht⟩ : ∃ t, ord.getLast? = some t := by
    cases ord with
    | nil => simp at h2
    | cons x tl => exact ⟨(x :: tl).getLast (by simp), List.getLast?_eq_getLast _ _⟩
  have hht : h ≠ t := by
    intro hh0
    exact head?_ne_getLast? hp.1 h2 hh (hh0 ▸ ht)
  have hnodupS : strand.Nodup := hperm.nodup_iff.mpr hp.1
  have hfn : (strand.filter fun cell => (adj cell).length = 1).Nodup :=
    hnodupS.filter _
  have hmem : ∀ x, x ∈ (strand.filter fun cell => (adj cell).length = 1) ↔
      (x = h ∨ x = t) := by
    intro x
    rw [List.mem_filter]
    constructor
    · rintro ⟨hxs, hxp⟩
      have hxord : x ∈ ord := hperm.subset hxs
      have := (adj_length_one_iff hp h2 hxord).mp (by simpa using hxp)
      rcases this with h0 | h0
      · left
        rw [hh] at h0
        exact (Option.some_inj.mp h0).symm
      · right
        rw [ht] at h0
        exact (Option.some_inj.mp h0).symm
    · intro hx
      have hxord : x ∈ ord := by
        rcases hx with rfl | rfl
        · exact List.mem_of_mem_head? (by simp [hh])
        · exact List.mem_of_mem_getLast? (by simp [ht])
      refine ⟨hperm.symm.subset hxord, ?_⟩
      rw [decide_eq_true_eq, adj_length_one_iff hp h2 hxord]
      rcases hx with rfl | rfl
      · exact Or.inl hh
      · exact Or.inr ht
  rcases nodup_two_elems hht hfn hmem with hf | hf
  · exact ⟨h, t, hf, Or.inl ⟨hh, ht⟩⟩
  · exact ⟨t, h, hf, Or.inr ⟨hh, ht⟩⟩

/-- Each unit of the trim loop removes one cell from one of the two ends:
the result is a contiguous block, `a` cells dropped from the front and the
rest from the back. -/
theorem trimLoop_spec : ∀ (n : ℕ) (l : List Cell) (g : RandS), n ≤ l.length →
    ∃ a, a ≤ n ∧ (trimLoop n l g).1 = (l.drop a).take (l.length - n)
  | 0, l, g, _ => ⟨0, le_refl 0, by simp [trimLoop]⟩
  | n + 1, l, g, hn => by
    rw [trimLoop]
    by_cases hb : (randrange g 2).1 ≠ 0
    · rw [if_pos hb]
      have htl : l.tail.length = l.length - 1 := by simp
      obtain ⟨a, ha, hres⟩ := trimLoop_spec n l.tail (randrange g 2).2
        (by omega)
      refine ⟨a + 1, by omega, ?_⟩
      rw [hres, htl, ← List.drop_one, List.drop_drop]
      have : l.length - 1 - n = l.length - (n + 1) := by omega
      rw [this, Nat.add_comm 1 a]
    · rw [if_neg hb]
      have hdl : l.dropLast.length = l.length - 1 := by simp
      obtain ⟨a, ha, hres⟩ := trimLoop_spec n l.dropLast (randrange g 2).2
        (by omega)
      refine ⟨a, by omega, ?_⟩
      rw [hres, hdl, List.dropLast_eq_take, List.drop_take]
      rw [List.take_take]
      have hmin : (l.length - 1 - n) ⊓ (l.length - 1 - a) = l.length - (n + 1) := by
        rw [inf_eq_min, Nat.min_def]
        split <;> omega
      rw [hmin]

theorem cleanseAfterWalk_spec (st : DifficultySettings) (g : RandS)
    (seq : List Cell) (h3 : 3 ≤ seq.length) :
    ∃ (t a : ℕ), a ≤ t ∧ t ≤ 2 ∧
      (0 < min ((seq.length : ℤ) - st.distl) 2 →
        (t : ℤ) ≤ min ((seq.length : ℤ) - st.distl) 2) ∧
      (min ((seq.length : ℤ) - st.distl) 2 ≤ 0 → t = 0) ∧
      (cleanseAfterWalk st g seq).1 =
        (seq.drop (a + 1)).take (seq.length - 1 - t) := by
  by_cases hpos : 0 < min ((seq.length : ℤ) - st.distl) 2
  · have hcl : cleanseAfterWalk st g seq =
        ((trimLoop (randrange g ((min ((seq.length : ℤ) - st.distl) 2).toNat + 1)).1
            seq (randrange g ((min ((seq.length : ℤ) - st.distl) 2).toNat + 1)).2).1.tail,
          (trimLoop (randrange g ((min ((seq.length : ℤ) - st.distl) 2).toNat + 1)).1
            seq (randrange g ((min ((seq.length : ℤ) - st.distl) 2).toNat + 1)).2).2) := by
      unfold cleanseAfterWalk
      rw [if_pos hpos]
    set t := (randrange g ((min ((seq.length : ℤ) - st.distl) 2).toNat + 1)).1 with hT
    have htle : t ≤ (min ((seq.length : ℤ) - st.distl) 2).toNat := by
      rw [hT]
      have : (randrange g ((min ((seq.length : ℤ) - st.distl) 2).toNat + 1)).1 <
          (min ((seq.length : ℤ) - st.distl) 2).toNat + 1 :=
        Nat.mod_lt _ (by omega)
      omega
    have hct2 : (min ((seq.length : ℤ) - st.distl) 2).toNat ≤ 2 := by omega
    have htlen : t ≤ seq.length := by omega
    obtain ⟨a, ha, hres⟩ := trimLoop_spec t seq
      (randrange g ((min ((seq.length : ℤ) - st.distl) 2).toNat + 1)).2 htlen
    refine ⟨t, a, ha, by omega, fun _ => ?_, fun hc => absurd hpos (by omega), ?_⟩
    · have : (((min ((seq.length : ℤ) - st.distl) 2).toNat : ℤ)) =
          min ((seq.length : ℤ) - st.distl) 2 := Int.toNat_of_nonneg (le_of_lt hpos)
      omega
    · rw [hcl]
      simp only [hres]
      rw [← List.drop_one, List.drop_take, List.drop_drop]
      have hm : seq.length - t - 1 = seq.length - 1 - t := by omega
      rw [hm]
  · have ht0 : (min ((seq.length : ℤ) - st.distl) 2).toNat = 0 := by omega
    have hcl : cleanseAfterWalk st g seq =
        ((trimLoop (min ((seq.length : ℤ) - st.distl) 2).toNat seq g).1.tail,
          (trimLoop (min ((seq.length : ℤ) - st.distl) 2).toNat seq g).2) := by
      unfold cleanseAfterWalk
      rw [if_neg hpos]
    rw [ht0] at hcl
    obtain ⟨a, ha, hres⟩ := trimLoop_spec 0 seq g (by omega)
    have ha0 : a = 0 := Nat.le_zero.mp ha
    subst ha0
    refine ⟨0, 0, le_refl 0, by omega, fun hc => absurd hc hpos, fun _ => rfl, ?_⟩
    rw [hcl]
    simp only [hres]
    rw [← List.drop_one, List.drop_take, List.drop_drop]
    have hm : seq.length - 0 - 1 = seq.length - 1 - 0 := by omega
    rw [hm]

/-- Master specification of `cleanse` on a path-shaped strand: the walk
sequence has `strand.length + 1` entries (the start cell is seeded twice),
a trim amount `t` within `min(len(seq) - distl, 2)` is used, and the result
is a contiguous block of the path order (or its reverse) of exactly
`strand.length - t` cells. -/
theorem cleanse_spec {st : DifficultySettings} {adj : Cell → List Cell}
    {strand ord : List Cell} (g : RandS)
    (hperm : List.Perm strand ord) (hp : IsPathOrd adj ord)
    (h2 : 2 ≤ ord.length) :
    ∃ (t : ℕ) (path : List Cell) (g₂ : RandS),
      cleanse st adj strand g = some (path, g₂) ∧ t ≤ 2 ∧
      (0 < min ((strand.length : ℤ) + 1 - st.distl) 2 →
        (t : ℤ) ≤ min ((strand.length : ℤ) + 1 - st.distl) 2) ∧
      (min ((strand.length : ℤ) + 1 - st.distl) 2 ≤ 0 → t = 0) ∧
      path.length = strand.length - t ∧
      ∃ ord', (ord' = ord ∨ ord' = ord.reverse) ∧
        ∃ a, path = (ord'.drop a).take (ord.length - t) := by
  obtain ⟨s, e, hfil, hcase⟩ := endpoints_filter hperm hp h2
  have hL : strand.length = ord.length := hperm.length_eq
  obtain ⟨ord', hord', hp', hs', he', hlen'⟩ :
      ∃ ord', (ord' = ord ∨ ord' = ord.reverse) ∧ IsPathOrd adj ord' ∧
        ord'.head? = some s ∧ ord'.getLast? = some e ∧
        ord'.length = ord.length := by
    rcases hcase with ⟨hh, ht⟩ | ⟨hh, ht⟩
    · exact ⟨ord, Or.inl rfl, hp, hh, ht, rfl⟩
    · refine ⟨ord.reverse, Or.inr rfl, isPathOrd_reverse hp, ?_, ?_, by simp⟩
      · rw [List.head?_reverse]
        exact ht
      · rw [List.getLast?_reverse]
        exact hh
  have hwalk : walkFrom adj s e (strand.length + 1) = some (s :: ord') :=
    walkFrom_spec hp' (by omega) hs' he' (by omega)
  have hcl : cleanse st adj strand g =
      some (cleanseAfterWalk st g (s :: ord')) := by
    unfold cleanse
    rw [hfil]
    show (walkFrom adj s e (strand.length + 1)).map (cleanseAfterWalk st g) = _
    rw [hwalk]
    rfl
  have hseqlen : (s :: ord').length = strand.length + 1 := by
    simp [hlen', hL]
  obtain ⟨t, a, ha, ht2, hbound, hzero, hres⟩ :=
    cleanseAfterWalk_spec st g (s :: ord') (by omega)
  rw [hseqlen] at hbound hzero hres
  refine ⟨t, (cleanseAfterWalk st g (s :: ord')).1,
    (cleanseAfterWalk st g (s :: ord')).2, by rw [hcl], ht2, hbound, hzero, ?_, ?_⟩
  · rw [hres]
    rw [List.drop_succ_cons]
    have hdlen : (ord'.drop a).length = ord.length - a := by
      simp [hlen']
    rw [List.length_take, hdlen]
    have : strand.length + 1 - 1 - t = ord.length - t := by omega
    rw [this]
    have hat : a ≤ 2 := le_trans ha ht2
    have hmin2 : (ord.length - t) ⊓ (ord.length - a) = ord.length - t := by
      rw [Nat.min_def]
      split <;> omega
    rw [hmin2, hL]
  · refine ⟨ord', hord', a, ?_⟩
    rw [hres, List.drop_succ_cons]
    have : strand.length + 1 - 1 - t = ord.length - t := by omega
    rw [this]

/-! ### The strand-builder invariant -/

/-- The keys of the `strandi` dict, in insertion order. -/
def keysOf (d : List (Cell × ℕ)) : List Cell := d.map Prod.fst

/-- The global invariant of the strand builder: `strandi` has distinct
in-grid keys; strands are nonempty, made of assigned cells, pairwise
cell-disjoint, path-shaped (with geometrically adjacent consecutive cells in
path order); and cells in no strand have no edges. -/
structure BInv (r c : ℕ) (adj : Cell → List Cell) (strands : List (List Cell))
    (strandi : List (Cell × ℕ)) : Prop where
  keys_nodup : (keysOf strandi).Nodup
  keys_grid : ∀ x ∈ keysOf strandi, x ∈ gridCells r c
  strand_ne : ∀ (m : ℕ) (hm : m < strands.length), strands[m] ≠ []
  strand_keys : ∀ (m : ℕ) (hm : m < strands.length), ∀ cell ∈ strands[m],
    cell ∈ keysOf strandi
  disj : ∀ (m n : ℕ) (hm : m < strands.length) (hn : n < strands.length),
    m ≠ n → ∀ x ∈ strands[m], x ∉ strands[n]
  pathlike : ∀ (m : ℕ) (hm : m < strands.length), ∃ ord,
    List.Perm strands[m] ord ∧ IsPathOrd adj ord ∧ List.Chain' Adjacent ord
  outside_empty : ∀ cell, (∀ (m : ℕ) (hm : m < strands.length),
    cell ∉ strands[m]) → adj cell = []

/-- Frontier-correctness: every frontier cell is assigned, with a valid
index into the current strands list, and its strand contains it. -/
def InvF (strands : List (List Cell)) (strandi : List (Cell × ℕ))
    (frontier : List Cell) : Prop :=
  ∀ cell ∈ frontier, ∃ k, dictLookup strandi cell = some k ∧
    k < strands.length ∧ cell ∈ strands.getD k []

/-- Occurrence count of a cell in a list (kept separate from `List.count`
to pin down one decidable-equality instance). -/
def cellCount (x : Cell) (l : List Cell) : ℕ := (l.filter fun z => z = x).length

/-- Degree bound: a cell's frontier multiplicity plus its degree is at most
2 (seeds enter the frontier twice with degree 0; attached cells once with
degree 1). -/
def InvDeg (adj : Cell → List Cell) (frontier : List Cell) : Prop :=
  ∀ cell, cellCount cell frontier + (adj cell).length ≤ 2

theorem cellCount_perm {l₁ l₂ : List Cell} (h : List.Perm l₁ l₂) (x : Cell) :
    cellCount x l₁ = cellCount x l₂ := (h.filter _).length_eq

theorem cellCount_cons_self (x : Cell) (l : List Cell) :
    cellCount x (x :: l) = cellCount x l + 1 := by
  simp [cellCount, List.filter_cons]

theorem cellCount_cons_of_ne {x y : Cell} (h : y ≠ x) (l : List Cell) :
    cellCount x (y :: l) = cellCount x l := by
  simp [cellCount, List.filter_cons, h]

theorem cellCount_append (x : Cell) (l₁ l₂ : List Cell) :
    cellCount x (l₁ ++ l₂) = cellCount x l₁ + cellCount x l₂ := by
  simp [cellCount]

theorem cellCount_eq_zero {x : Cell} {l : List Cell} (h : x ∉ l) :
    cellCount x l = 0 := by
  simp only [cellCount, List.length_eq_zero, List.filter_eq_nil_iff]
  intro a ha
  simp only [decide_eq_true_eq]
  intro hax
  exact h (hax ▸ ha)

theorem cellCount_pos {x : Cell} {l : List Cell} (h : x ∈ l) :
    1 ≤ cellCount x l := by
  have : x ∈ l.filter fun z => z = x := List.mem_filter.mpr ⟨h, by simp⟩
  have hne : l.filter (fun z => z = x) ≠ [] := List.ne_nil_of_mem this
  have := List.length_pos.mpr hne
  unfold cellCount
  omega

theorem cellCount_sublist {l₁ l₂ : List Cell} (h : l₁.Sublist l₂) (x : Cell) :
    cellCount x l₁ ≤ cellCount x l₂ := (h.filter _).length_le

theorem adjacent_symm {a b : Cell} (h : Adjacent a b) : Adjacent b a := by
  unfold Adjacent DIJS at h ⊢
  obtain ⟨ax, ay⟩ := a
  obtain ⟨bx, by'⟩ := b
  simp only [List.mem_cons, List.mem_singleton, Prod.mk.injEq] at h ⊢
  rcases h with ⟨h1, h2⟩ | ⟨h1, h2⟩ | ⟨h1, h2⟩ | ⟨h1, h2⟩ | h0
  · exact Or.inr (Or.inr (Or.inl (by constructor <;> omega)))
  · exact Or.inr (Or.inr (Or.inr (Or.inl (by constructor <;> omega))))
  · exact Or.inl (by constructor <;> omega)
  · exact Or.inr (Or.inl (by constructor <;> omega))
  · exact absurd h0 (List.not_mem_nil _)

theorem chain'_adjacent_reverse {l : List Cell} (h : List.Chain' Adjacent l) :
    List.Chain' Adjacent l.reverse := by
  rw [List.chain'_reverse]
  exact List.Chain'.imp (fun a b hab => adjacent_symm hab) h

theorem goodNeighbors_mem {r c : ℕ} {strandi : List (Cell × ℕ)} {cell nc : Cell}
    (h : nc ∈ goodNeighbors r c strandi cell) :
    dictLookup strandi nc = none ∧ nc ∈ gridCells r c ∧ Adjacent cell nc := by
  unfold goodNeighbors at h
  rw [List.mem_filterMap] at h
  obtain ⟨d, hd, hcond⟩ := h
  by_cases hc : 0 ≤ cell.1 + d.1 ∧ cell.1 + d.1 < (r : ℤ) ∧ 0 ≤ cell.2 + d.2 ∧
      cell.2 + d.2 < (c : ℤ) ∧ dictLookup strandi (cell.1 + d.1, cell.2 + d.2) = none
  · rw [if_pos hc, Option.some_inj] at hcond
    subst hcond
    refine ⟨hc.2.2.2.2, mem_gridCells.mpr ⟨hc.1, hc.2.1, hc.2.2.1, hc.2.2.2.1⟩, ?_⟩
    unfold Adjacent
    have : (cell.1 + d.1 - cell.1, cell.2 + d.2 - cell.2) = d := by
      obtain ⟨d1, d2⟩ := d
      simp only [Prod.mk.injEq]
      constructor <;> ring
    rw [this]
    exact hd
  · rw [if_neg hc] at hcond
    exact Option.noConfusion hcond

theorem keysOf_append (d₁ d₂ : List (Cell × ℕ)) :
    keysOf (d₁ ++ d₂) = keysOf d₁ ++ keysOf d₂ := List.map_append _ _ _

theorem mem_keysOf_of_lookup {d : List (Cell × ℕ)} {cell : Cell} {k : ℕ}
    (h : dictLookup d cell = some k) : cell ∈ keysOf d := by
  have := dictLookup_mem h
  exact List.mem_map.mpr ⟨(cell, k), this, rfl⟩

theorem lookup_singleton_self (cell : Cell) (k : ℕ) :
    dictLookup [(cell, k)] cell = some k := by
  simp [dictLookup]

theorem keys_length_le {r c : ℕ} {strandi : List (Cell × ℕ)}
    (hnodup : (keysOf strandi).Nodup)
    (hgrid : ∀ x ∈ keysOf strandi, x ∈ gridCells r c) :
    strandi.length ≤ r * c := by
  have hsub : keysOf strandi ⊆ gridCells r c := hgrid
  have := (hnodup.subperm hsub).length_le
  rw [keysOf, List.length_map] at this
  rw [← length_gridCells r c]
  exact this

theorem growStep_eq_nogrow {st : DifficultySettings} {gs : GrowState}
    {cell : Cell} {frontier1 : List Cell} {g1 : RandS} {k : ℕ}
    (hrp : randpop gs.g gs.frontier = some (cell, frontier1, g1))
    (hk : dictLookup gs.strandi cell = some k)
    (hn : goodNeighbors st.r st.c gs.strandi cell = []) :
    growStep st gs = some ⟨gs.adj, gs.strands, gs.strandi, frontier1, g1⟩ := by
  unfold growStep
  rw [hrp, Option.some_bind]
  simp only
  rw [hk, hn]

theorem growStep_eq_grow {st : DifficultySettings} {gs : GrowState}
    {cell : Cell} {frontier1 : List Cell} {g1 : RandS} {k : ℕ} {nc : Cell}
    {g2 : RandS} {n0 : Cell} {nrest : List Cell}
    (hrp : randpop gs.g gs.frontier = some (cell, frontier1, g1))
    (hk : dictLookup gs.strandi cell = some k)
    (hn : goodNeighbors st.r st.c gs.strandi cell = n0 :: nrest)
    (hch : pyChoice g1 (n0 :: nrest) = some (nc, g2))
    (hklen : k < gs.strands.length) :
    growStep st gs = some ⟨fun z =>
        if z = cell then gs.adj cell ++ [nc]
        else if z = nc then gs.adj nc ++ [cell]
        else gs.adj z,
      gs.strands.set k (gs.strands.getD k [] ++ [nc]),
      gs.strandi ++ [(nc, k)], frontier1 ++ [nc], g2⟩ := by
  unfold growStep
  rw [hrp, Option.some_bind]
  simp only
  rw [hk, hn, hch]
  show (if k < gs.strands.length then
      some (⟨fun z =>
          if z = cell then gs.adj cell ++ [nc]
          else if z = nc then gs.adj nc ++ [cell]
          else gs.adj z,
        gs.strands.set k (gs.strands.getD k [] ++ [nc]),
        gs.strandi ++ [(nc, k)], frontier1 ++ [nc], g2⟩ : GrowState)
    else none) = _
  rw [if_pos hklen]

/-- One inner-loop iteration on a nonempty frontier: it succeeds, preserves
all invariants, only appends to `strandi` (any new entry pointing to the
strand that owns its cell), keeps the strands count, and decreases the
termination measure. -/
theorem growStep_spec {st : DifficultySettings} {gs : GrowState}
    (hInv : BInv st.r st.c gs.adj gs.strands gs.strandi)
    (hF : InvF gs.strands gs.strandi gs.frontier)
    (hD : InvDeg gs.adj gs.frontier)
    (hne : gs.frontier ≠ []) :
    ∃ gs', growStep st gs = some gs' ∧
      BInv st.r st.c gs'.adj gs'.strands gs'.strandi ∧
      InvF gs'.strands gs'.strandi gs'.frontier ∧
      InvDeg gs'.adj gs'.frontier ∧
      gs.strandi <+: gs'.strandi ∧
      gs'.strands.length = gs.strands.length ∧
      (∀ e ∈ gs'.strandi, e ∉ gs.strandi →
        e.2 < gs'.strands.length ∧ e.1 ∈ gs'.strands.getD e.2 []) ∧
      gs'.frontier.length + 2 * (st.r * st.c - gs'.strandi.length) + 1 ≤
        gs.frontier.length + 2 * (st.r * st.c - gs.strandi.length) := by
  rcases hrp : randpop gs.g gs.frontier with _ | ⟨cell, frontier1, g1⟩
  · have hsome := randpop_isSome gs.g hne
    rw [hrp] at hsome
    exact absurd hsome (by simp)
  have hpermf : List.Perm (cell :: frontier1) gs.frontier := randpop_perm hrp
  have hcellf : cell ∈ gs.frontier := hpermf.subset (List.mem_cons_self _ _)
  obtain ⟨k, hk, hklen, hkmemD⟩ := hF cell hcellf
  have hgetD : gs.strands.getD k [] = gs.strands[k] := List.getD_eq_getElem _ _ hklen
  have hkmem : cell ∈ gs.strands[k] := by rw [← hgetD]; exact hkmemD
  have hflen : frontier1.length + 1 = gs.frontier.length := by
    have := hpermf.length_eq
    simpa using this
  have hcount : ∀ z, cellCount z (cell :: frontier1) = cellCount z gs.frontier :=
    fun z => cellCount_perm hpermf z
  rcases hn : goodNeighbors st.r st.c gs.strandi cell with _ | ⟨n0, nrest⟩
  · refine ⟨⟨gs.adj, gs.strands, gs.strandi, frontier1, g1⟩,
      growStep_eq_nogrow hrp hk hn, hInv, ?_, ?_, List.prefix_refl _, rfl, ?_, ?_⟩
    · intro z hz
      exact hF z (hpermf.subset (List.mem_cons_of_mem _ hz))
    · intro z
      have h1 : cellCount z frontier1 ≤ cellCount z gs.frontier := by
        rw [← hcount z]
        exact cellCount_sublist (List.sublist_cons_self cell frontier1) z
      have h2 := hD z
      show cellCount z frontier1 + (gs.adj z).length ≤ 2
      omega
    · intro e he hnot
      exact absurd he hnot
    · show frontier1.length + 2 * (st.r * st.c - gs.strandi.length) + 1 ≤
        gs.frontier.length + 2 * (st.r * st.c - gs.strandi.length)
      omega
  · rcases hch : pyChoice g1 (n0 :: nrest) with _ | ⟨nc, g2⟩
    · have hsome := pyChoice_isSome g1 (l := n0 :: nrest) (by simp)
      rw [hch] at hsome
      exact absurd hsome (by simp)
    have hncmem : nc ∈ goodNeighbors st.r st.c gs.strandi cell := by
      rw [hn]
      exact pyChoice_mem hch
    obtain ⟨hnclook, hncgrid, hncadj⟩ := goodNeighbors_mem hncmem
    have hncfresh : nc ∉ keysOf gs.strandi := dictLookup_eq_none.mp hnclook
    have hcellkeys : cell ∈ keysOf gs.strandi := mem_keysOf_of_lookup hk
    have hcellnc : cell ≠ nc := fun hh => hncfresh (hh ▸ hcellkeys)
    have hncnostrand : ∀ (m : ℕ) (hm : m < gs.strands.length),
        nc ∉ gs.strands[m] :=
      fun m hm hmem => hncfresh (hInv.strand_keys m hm nc hmem)
    have hadjnc : gs.adj nc = [] :=
      hInv.outside_empty nc fun m hm => hncnostrand m hm
    have hstrlen : (gs.strands.set k (gs.strands.getD k [] ++ [nc])).length =
        gs.strands.length := by simp
    have hget_k : ∀ hm : k < (gs.strands.set k (gs.strands.getD k [] ++ [nc])).length,
        (gs.strands.set k (gs.strands.getD k [] ++ [nc]))[k] =
          gs.strands[k] ++ [nc] := by
      intro hm
      rw [List.getElem_set_self hm, hgetD]
    have hget_ne : ∀ (m : ℕ), m ≠ k →
        ∀ hm : m < (gs.strands.set k (gs.strands.getD k [] ++ [nc])).length,
        (gs.strands.set k (gs.strands.getD k [] ++ [nc]))[m] =
          gs.strands.get ⟨m, by rw [hstrlen] at hm; exact hm⟩ := by
      intro m hmk hm
      exact List.getElem_set_ne (fun hh => hmk hh.symm) hm
    have hlooknc : dictLookup (gs.strandi ++ [(nc, k)]) nc = some k := by
      rw [dictLookup_append_right hnclook]
      exact lookup_singleton_self nc k
    have hfrontkeys : ∀ z ∈ gs.frontier, z ∈ keysOf gs.strandi := by
      intro z hz
      obtain ⟨k0, hk0, -, -⟩ := hF z hz
      exact mem_keysOf_of_lookup hk0
    have hncfront1 : nc ∉ frontier1 := fun hmem =>
      hncfresh (hfrontkeys nc (hpermf.subset (List.mem_cons_of_mem _ hmem)))
    obtain ⟨ord, hordperm, hordpath, hordchain⟩ := hInv.pathlike k hklen
    have hcellord : cell ∈ ord := hordperm.subset hkmem
    have hdegcell : (gs.adj cell).length ≤ 1 := by
      have hcnt := hD cell
      have hpos : 1 ≤ cellCount cell gs.frontier := cellCount_pos hcellf
      omega
    have hnbrslen : (ordNbrs ord cell).length ≤ 1 := by
      rw [← (hordpath.2 cell hcellord).length_eq]
      exact hdegcell
    have hend := endpoint_of_nbrs_le_one hordpath.1 hcellord hnbrslen
    obtain ⟨ord₀, hord₀perm, hord₀path, hord₀chain, hord₀head⟩ :
        ∃ ord₀, List.Perm gs.strands[k] ord₀ ∧ IsPathOrd gs.adj ord₀ ∧
          List.Chain' Adjacent ord₀ ∧ ord₀.head? = some cell := by
      rcases hend with hh | hh
      · exact ⟨ord, hordperm, hordpath, hordchain, hh⟩
      · refine ⟨ord.reverse, hordperm.trans (List.reverse_perm ord).symm,
          isPathOrd_reverse hordpath, chain'_adjacent_reverse hordchain, ?_⟩
        rw [List.head?_reverse]
        exact hh
    have hncord₀ : nc ∉ ord₀ := fun hmem =>
      hncnostrand k hklen (hord₀perm.symm.subset hmem)
    have hadj1cell : (if cell = cell then gs.adj cell ++ [nc]
        else if cell = nc then gs.adj nc ++ [cell]
        else gs.adj cell) = gs.adj cell ++ [nc] := by simp
    have hadj1nc : (if nc = cell then gs.adj cell ++ [nc]
        else if nc = nc then gs.adj nc ++ [cell]
        else gs.adj nc) = [cell] := by
      simp [Ne.symm hcellnc, hadjnc]
    have hadj1other : ∀ z, z ≠ cell → z ≠ nc →
        (if z = cell then gs.adj cell ++ [nc]
         else if z = nc then gs.adj nc ++ [cell]
         else gs.adj z) = gs.adj z := by
      intro z h1 h2
      simp only [if_neg h1, if_neg h2]
    have hnewpath : IsPathOrd (fun z =>
        if z = cell then gs.adj cell ++ [nc]
        else if z = nc then gs.adj nc ++ [cell]
        else gs.adj z) (nc :: ord₀) :=
      isPathOrd_extend hord₀path hord₀head hncord₀ hadj1cell hadj1nc hadj1other
    have hnewchain : List.Chain' Adjacent (nc :: ord₀) := by
      rw [List.chain'_cons']
      refine ⟨?_, hord₀chain⟩
      intro y hy
      rw [hord₀head] at hy
      have hyc : cell = y := by simpa using hy
      rw [← hyc]
      exact adjacent_symm hncadj
    have hnewperm : List.Perm (gs.strands[k] ++ [nc]) (nc :: ord₀) :=
      (hord₀perm.append_right [nc]).trans (List.perm_append_singleton nc ord₀)
    refine ⟨⟨fun z =>
        if z = cell then gs.adj cell ++ [nc]
        else if z = nc then gs.adj nc ++ [cell]
        else gs.adj z,
      gs.strands.set k (gs.strands.getD k [] ++ [nc]),
      gs.strandi ++ [(nc, k)], frontier1 ++ [nc], g2⟩,
      growStep_eq_grow hrp hk hn hch hklen, ?_, ?_, ?_,
      List.prefix_append _ _, hstrlen, ?_, ?_⟩
    · -- BInv
      show BInv st.r st.c (fun z =>
          if z = cell then gs.adj cell ++ [nc]
          else if z = nc then gs.adj nc ++ [cell]
          else gs.adj z)
        (gs.strands.set k (gs.strands.getD k [] ++ [nc])) (gs.strandi ++ [(nc, k)])
      refine ⟨?_, ?_, ?_, ?_, ?_, ?_, ?_⟩
      · rw [keysOf_append]
        rw [List.nodup_append]
        refine ⟨hInv.keys_nodup, List.nodup_singleton nc, ?_⟩
        intro x hx hx2
        have hxnc : x = nc := by simpa [keysOf] using hx2
        exact hncfresh (hxnc ▸ hx)
      · intro x hx
        rw [keysOf_append] at hx
        rcases List.mem_append.mp hx with hx | hx
        · exact hInv.keys_grid x hx
        · have : x = nc := by simpa [keysOf] using hx
          rw [this]
          exact hncgrid
      · intro m hm
        by_cases hmk : m = k
        · subst hmk
          rw [hget_k hm]
          simp
        · rw [hget_ne m hmk hm]
          exact hInv.strand_ne m (by rw [hstrlen] at hm; exact hm)
      · intro m hm x hx
        rw [keysOf_append]
        by_cases hmk : m = k
        · subst hmk
          rw [hget_k hm] at hx
          rcases List.mem_append.mp hx with hx | hx
          · exact List.mem_append_left _
              (hInv.strand_keys m (by rw [hstrlen] at hm; exact hm) x hx)
          · have : x = nc := by simpa using hx
            rw [this]
            exact List.mem_append_right _ (by simp [keysOf])
        · rw [hget_ne m hmk hm] at hx
          exact List.mem_append_left _
            (hInv.strand_keys m (by rw [hstrlen] at hm; exact hm) x hx)
      · intro m n hm hn0 hmn x hx
        have hm' : m < gs.strands.length := by rw [hstrlen] at hm; exact hm
        have hn' : n < gs.strands.length := by rw [hstrlen] at hn0; exact hn0
        by_cases hmk : m = k
        · subst hmk
          rw [hget_k hm] at hx
          rw [hget_ne n (fun hh => hmn hh.symm) hn0]
          rcases List.mem_append.mp hx with hx | hx
          · exact hInv.disj m n hm' hn' hmn x hx
          · have : x = nc := by simpa using hx
            rw [this]
            exact hncnostrand n hn'
        · rw [hget_ne m hmk hm] at hx
          by_cases hnk : n = k
          · subst hnk
            rw [hget_k hn0]
            intro hcon
            rcases List.mem_append.mp hcon with hcon | hcon
            · exact hInv.disj m n hm' hn' hmn x hx hcon
            · have : x = nc := by simpa using hcon
              exact hncnostrand m hm' (this ▸ hx)
          · rw [hget_ne n hnk hn0]
            exact hInv.disj m n hm' hn' hmn x hx
      · intro m hm
        by_cases hmk : m = k
        · subst hmk
          rw [hget_k hm]
          exact ⟨nc :: ord₀, hnewperm, hnewpath, hnewchain⟩
        · rw [hget_ne m hmk hm]
          have hm' : m < gs.strands.length := by rw [hstrlen] at hm; exact hm
          obtain ⟨ordm, hmperm, hmpath, hmchain⟩ := hInv.pathlike m hm'
          refine ⟨ordm, hmperm, ⟨hmpath.1, ?_⟩, hmchain⟩
          intro a ha
          have hacell : a ≠ cell := by
            intro hh
            exact hInv.disj k m hklen hm' (fun h0 => hmk h0.symm) cell hkmem
              (hh ▸ hmperm.symm.subset ha)
          have hanc : a ≠ nc := by
            intro hh
            exact hncnostrand m hm' (hh ▸ hmperm.symm.subset ha)
          show List.Perm (if a = cell then gs.adj cell ++ [nc]
              else if a = nc then gs.adj nc ++ [cell]
              else gs.adj a) (ordNbrs ordm a)
          rw [hadj1other a hacell hanc]
          exact hmpath.2 a ha
      · intro z hz
        have hzcell : z ≠ cell := by
          intro hh
          subst hh
          exact hz k (by rw [hstrlen]; exact hklen) (by rw [hget_k]; exact List.mem_append_left _ hkmem)
        have hznc : z ≠ nc := by
          intro hh
          subst hh
          exact hz k (by rw [hstrlen]; exact hklen) (by rw [hget_k]; simp)
        show (if z = cell then gs.adj cell ++ [nc]
            else if z = nc then gs.adj nc ++ [cell]
            else gs.adj z) = []
        rw [hadj1other z hzcell hznc]
        refine hInv.outside_empty z ?_
        intro m hm'
        by_cases hmk : m = k
        · subst hmk
          intro hcon
          exact hz m (by rw [hstrlen]; exact hm') (by
            rw [hget_k]
            exact List.mem_append_left _ hcon)
        · intro hcon
          exact hz m (by rw [hstrlen]; exact hm')
            (by rw [hget_ne m hmk]; exact hcon)
    · -- InvF
      show InvF (gs.strands.set k (gs.strands.getD k [] ++ [nc]))
        (gs.strandi ++ [(nc, k)]) (frontier1 ++ [nc])
      intro z hz
      rcases List.mem_append.mp hz with hz | hz
      · obtain ⟨k0, hk0, hk0len, hk0mem⟩ :=
          hF z (hpermf.subset (List.mem_cons_of_mem _ hz))
        refine ⟨k0, dictLookup_append_left hk0, by rw [hstrlen]; exact hk0len, ?_⟩
        have hk0len' : k0 < (gs.strands.set k (gs.strands.getD k [] ++ [nc])).length := by
          rw [hstrlen]
          exact hk0len
        rw [List.getD_eq_getElem _ _ hk0len']
        by_cases hk0k : k0 = k
        · subst hk0k
          rw [hget_k hk0len']
          rw [List.getD_eq_getElem _ _ hk0len] at hk0mem
          exact List.mem_append_left _ hk0mem
        · rw [hget_ne k0 hk0k hk0len']
          rw [List.getD_eq_getElem _ _ hk0len] at hk0mem
          exact hk0mem
      · have hz2 : z = nc := by simpa using hz
        refine ⟨k, by rw [hz2]; exact hlooknc, by rw [hstrlen]; exact hklen, ?_⟩
        have hklen' : k < (gs.strands.set k (gs.strands.getD k [] ++ [nc])).length := by
          rw [hstrlen]
          exact hklen
        rw [hz2, List.getD_eq_getElem _ _ hklen', hget_k hklen']
        simp
    · -- InvDeg
      show InvDeg (fun z =>
          if z = cell then gs.adj cell ++ [nc]
          else if z = nc then gs.adj nc ++ [cell]
          else gs.adj z) (frontier1 ++ [nc])
      intro z
      show cellCount z (frontier1 ++ [nc]) +
          (if z = cell then gs.adj cell ++ [nc]
           else if z = nc then gs.adj nc ++ [cell]
           else gs.adj z).length ≤ 2
      rw [cellCount_append]
      by_cases hznc : z = nc
      · rw [hznc, hadj1nc]
        have hcnt1 : cellCount nc frontier1 = 0 := cellCount_eq_zero hncfront1
        rw [hcnt1]
        simp [cellCount]
      · have hcnt2 : cellCount z [nc] = 0 :=
          cellCount_eq_zero (by simp [hznc])
        rw [hcnt2]
        by_cases hzcell : z = cell
        · have hc1 : cellCount cell (cell :: frontier1) = cellCount cell frontier1 + 1 :=
            cellCount_cons_self cell frontier1
          have hc2 := hcount cell
          rw [hc1] at hc2
          have hd := hD cell
          have hlen1 : (if cell = cell then gs.adj cell ++ [nc]
              else if cell = nc then gs.adj nc ++ [cell]
              else gs.adj cell).length = (gs.adj cell).length + 1 := by
            simp
          rw [hzcell, hlen1]
          omega
        · have hc1 : cellCount z (cell :: frontier1) = cellCount z frontier1 :=
            cellCount_cons_of_ne (fun hh => hzcell hh.symm) frontier1
          have hc2 := hcount z
          rw [hc1] at hc2
          have hd := hD z
          rw [hadj1other z hzcell hznc]
          omega
    · -- new entries are correct at insertion time
      show ∀ e ∈ gs.strandi ++ [(nc, k)], e ∉ gs.strandi →
        e.2 < (gs.strands.set k (gs.strands.getD k [] ++ [nc])).length ∧
        e.1 ∈ (gs.strands.set k (gs.strands.getD k [] ++ [nc])).getD e.2 []
      intro e he hnot
      have he2 : e = (nc, k) := by
        rcases List.mem_append.mp he with h | h
        · exact absurd h hnot
        · simpa using h
      subst he2
      refine ⟨by simp only; rw [hstrlen]; exact hklen, ?_⟩
      have hklen' : k < (gs.strands.set k (gs.strands.getD k [] ++ [nc])).length := by
        rw [hstrlen]
        exact hklen
      simp only
      rw [List.getD_eq_getElem _ _ hklen', hget_k hklen']
      simp
    · -- termination measure decreases
      show (frontier1 ++ [nc]).length +
          2 * (st.r * st.c - (gs.strandi ++ [(nc, k)]).length) + 1 ≤
        gs.frontier.length + 2 * (st.r * st.c - gs.strandi.length)
      simp only [List.length_append, List.length_singleton]
      have hbound : gs.strandi.length + 1 ≤ st.r * st.c := by
        have hnod : (keysOf (gs.strandi ++ [(nc, k)])).Nodup := by
          rw [keysOf_append, List.nodup_append]
          refine ⟨hInv.keys_nodup, List.nodup_singleton nc, ?_⟩
          intro x hx hx2
          have hxnc : x = nc := by simpa [keysOf] using hx2
          exact hncfresh (hxnc ▸ hx)
        have hgr : ∀ x ∈ keysOf (gs.strandi ++ [(nc, k)]), x ∈ gridCells st.r st.c := by
          intro x hx
          rw [keysOf_append] at hx
          rcases List.mem_append.mp hx with hx | hx
          · exact hInv.keys_grid x hx
          · have : x = nc := by simpa [keysOf] using hx
            rw [this]
            exact hncgrid
        have := keys_length_le hnod hgr
        simpa using this
      omega

theorem BInv_deg_le_two {r c : ℕ} {adj : Cell → List Cell}
    {strands : List (List Cell)} {strandi : List (Cell × ℕ)}
    (h : BInv r c adj strands strandi) (z : Cell) : (adj z).length ≤ 2 := by
  by_cases hz : ∃ (m : ℕ) (hm : m < strands.length), z ∈ strands[m]
  · obtain ⟨m, hm, hzm⟩ := hz
    obtain ⟨ord, hperm, hpath, -⟩ := h.pathlike m hm
    rw [(hpath.2 z (hperm.subset hzm)).length_eq]
    exact ordNbrs_length_le_two hpath.1 z
  · push_neg at hz
    rw [h.outside_empty z hz]
    simp

theorem strands_nodup_of_BInv {r c : ℕ} {adj : Cell → List Cell}
    {strands : List (List Cell)} {strandi : List (Cell × ℕ)}
    (h : BInv r c adj strands strandi) : strands.Nodup := by
  show List.Pairwise _ strands
  rw [List.pairwise_iff_getElem]
  intro i j hi hj hij heq
  obtain ⟨x, hx⟩ := List.exists_mem_of_ne_nil _ (h.strand_ne i hi)
  exact h.disj i j hi hj (Nat.ne_of_lt hij) x hx (heq ▸ hx)

/-- Pruning the length-1 strands preserves the invariant (a pruned
singleton's cell has no edges, so `outside_empty` survives), and afterwards
every strand has at least 2 cells. -/
theorem prune_spec {r c : ℕ} {adj : Cell → List Cell}
    {strands : List (List Cell)} {strandi : List (Cell × ℕ)}
    (h : BInv r c adj strands strandi) :
    BInv r c adj (strands.filter fun t => 1 < t.length) strandi ∧
      ∀ (m : ℕ) (hm : m < (strands.filter fun t => 1 < t.length).length),
        1 < (strands.filter fun t => 1 < t.length)[m].length := by
  have hidx : ∀ (m : ℕ) (hm : m < (strands.filter fun t => 1 < t.length).length),
      ∃ (n : ℕ) (hn : n < strands.length),
        strands[n] = (strands.filter fun t => 1 < t.length)[m] := by
    intro m hm
    have hmem : (strands.filter fun t => 1 < t.length)[m] ∈
        strands.filter fun t => 1 < t.length := List.getElem_mem hm
    exact List.getElem_of_mem (List.mem_of_mem_filter hmem)
  have hkeep : ∀ (m : ℕ) (hm : m < (strands.filter fun t => 1 < t.length).length),
      1 < (strands.filter fun t => 1 < t.length)[m].length := by
    intro m hm
    have hmem : (strands.filter fun t => 1 < t.length)[m] ∈
        strands.filter fun t => 1 < t.length := List.getElem_mem hm
    have := (List.mem_filter.mp hmem).2
    simpa using this
  have hnodupS : strands.Nodup := strands_nodup_of_BInv h
  have hnodupF : (strands.filter fun t => 1 < t.length).Nodup := hnodupS.filter _
  refine ⟨⟨h.keys_nodup, h.keys_grid, ?_, ?_, ?_, ?_, ?_⟩, hkeep⟩
  · intro m hm
    obtain ⟨n, hn, heq⟩ := hidx m hm
    rw [← heq]
    exact h.strand_ne n hn
  · intro m hm cell hcell
    obtain ⟨n, hn, heq⟩ := hidx m hm
    rw [← heq] at hcell
    exact h.strand_keys n hn cell hcell
  · intro m n hm hn hmn x hx
    obtain ⟨i, hi, hieq⟩ := hidx m hm
    obtain ⟨j, hj, hjeq⟩ := hidx n hn
    have hij : i ≠ j := by
      intro hh
      subst hh
      exact hmn (hnodupF.getElem_inj_iff.mp (hjeq ▸ hieq)).symm
    rw [← hieq] at hx
    rw [← hjeq]
    exact h.disj i j hi hj hij x hx
  · intro m hm
    obtain ⟨n, hn, heq⟩ := hidx m hm
    rw [← heq]
    exact h.pathlike n hn
  · intro z hz
    by_cases hmem : ∃ (n : ℕ) (hn : n < strands.length), z ∈ strands[n]
    · obtain ⟨n, hn, hzn⟩ := hmem
      have hnot : ¬ 1 < strands[n].length := by
        intro hlen
        have hinF : strands[n] ∈ strands.filter fun t => 1 < t.length :=
          List.mem_filter.mpr ⟨List.getElem_mem hn, by simpa using hlen⟩
        obtain ⟨m, hm, hmeq⟩ := List.getElem_of_mem hinF
        exact hz m hm (hmeq ▸ hzn)
      have hne := h.strand_ne n hn
      have hlen1 : strands[n].length = 1 := by
        have := List.length_pos.mpr hne
        omega
      obtain ⟨a, ha⟩ := List.length_eq_one.mp hlen1
      have haz : a = z := by
        rw [ha] at hzn
        have : z = a := by simpa using hzn
        exact this.symm
      subst haz
      obtain ⟨ord, hperm, hpath, -⟩ := h.pathlike n hn
      have hordz : ord = [a] := by
        have : List.Perm ord [a] := (ha ▸ hperm).symm
        exact List.perm_singleton.mp this
      have := hpath.2 a (by rw [hordz]; simp)
      rw [hordz] at this
      have hnil : ordNbrs [a] a = [] := rfl
      rw [hnil] at this
      exact this.eq_nil
    · push_neg at hmem
      exact h.outside_empty z hmem

/-- The fuelled inner loop succeeds whenever the fuel dominates the
termination measure, preserving the invariant and only appending to
`strandi`. -/
theorem growLoop_spec {st : DifficultySettings} :
    ∀ (fuel : ℕ) (gs : GrowState),
      BInv st.r st.c gs.adj gs.strands gs.strandi →
      InvF gs.strands gs.strandi gs.frontier →
      InvDeg gs.adj gs.frontier →
      gs.frontier.length + 2 * (st.r * st.c - gs.strandi.length) ≤ fuel →
      ∃ gs', growLoop st fuel gs = some gs' ∧
        BInv st.r st.c gs'.adj gs'.strands gs'.strandi ∧
        gs.strandi <+: gs'.strandi
  | 0, gs, hInv, _, _, hfuel => by
    have hfe : gs.frontier = [] := List.length_eq_zero.mp (by omega)
    rw [growLoop, if_pos hfe]
    exact ⟨gs, rfl, hInv, List.prefix_refl _⟩
  | fuel + 1, gs, hInv, hF, hD, hfuel => by
    by_cases hfe : gs.frontier = []
    · rw [growLoop, if_pos hfe]
      exact ⟨gs, rfl, hInv, List.prefix_refl _⟩
    · obtain ⟨gs1, hstep, hInv1, hF1, hD1, hpre1, hslen1, hnew1, hmeas⟩ :=
        growStep_spec hInv hF hD hfe
      obtain ⟨gs', hloop, hInv', hpre'⟩ := growLoop_spec fuel gs1 hInv1 hF1 hD1
        (by omega)
      refine ⟨gs', ?_, hInv', hpre1.trans hpre'⟩
      rw [growLoop, if_neg hfe, hstep, Option.some_bind, hloop]

theorem cellCount_eq_one_of_nodup : ∀ {l : List Cell} {x : Cell},
    l.Nodup → x ∈ l → cellCount x l = 1
  | [], x, _, hx => absurd hx (List.not_mem_nil x)
  | a :: tl, x, hnodup, hx => by
    by_cases hax : a = x
    · subst hax
      rw [cellCount_cons_self]
      have : a ∉ tl := (List.nodup_cons.mp hnodup).1
      rw [cellCount_eq_zero this]
    · rw [cellCount_cons_of_ne hax]
      rcases List.mem_cons.mp hx with rfl | hxtl
      · exact absurd rfl hax
      · exact cellCount_eq_one_of_nodup (List.nodup_cons.mp hnodup).2 hxtl

theorem doSeeds_strands : ∀ (seeds : List Cell) (strands : List (List Cell))
    (strandi : List (Cell × ℕ)),
    (doSeeds seeds strands strandi).1 = strands ++ seeds.map fun s => [s]
  | [], strands, strandi => by simp [doSeeds]
  | s :: rest, strands, strandi => by
    rw [doSeeds, doSeeds_strands rest]
    simp

theorem doSeeds_keys : ∀ (seeds : List Cell) (strands : List (List Cell))
    (strandi : List (Cell × ℕ)),
    keysOf (doSeeds seeds strands strandi).2 = keysOf strandi ++ seeds
  | [], _, _ => by simp [doSeeds]
  | s :: rest, strands, strandi => by
    rw [doSeeds, doSeeds_keys rest, keysOf_append]
    simp [keysOf]

theorem doSeeds_grows : ∀ (seeds : List Cell) (strands : List (List Cell))
    (strandi : List (Cell × ℕ)),
    strandi <+: (doSeeds seeds strands strandi).2
  | [], _, _ => List.prefix_refl _
  | s :: rest, strands, strandi =>
    (List.prefix_append _ _).trans (doSeeds_grows rest _ _)

theorem doSeeds_length : ∀ (seeds : List Cell) (strands : List (List Cell))
    (strandi : List (Cell × ℕ)),
    (doSeeds seeds strands strandi).2.length = strandi.length + seeds.length
  | [], _, _ => by simp [doSeeds]
  | s :: rest, strands, strandi => by
    rw [doSeeds, doSeeds_length rest]
    simp
    omega

theorem doSeeds_lookup_frozen : ∀ (seeds : List Cell) (strands : List (List Cell))
    (strandi : List (Cell × ℕ)) (cell : Cell), cell ∉ seeds →
    dictLookup (doSeeds seeds strands strandi).2 cell = dictLookup strandi cell
  | [], _, _, _, _ => rfl
  | s :: rest, strands, strandi, cell, h => by
    rw [doSeeds, doSeeds_lookup_frozen rest _ _ cell
      (fun hh => h (List.mem_cons_of_mem _ hh))]
    have hcs : s ≠ cell := fun hh => h (hh ▸ List.mem_cons_self s rest)
    rcases hlk : dictLookup strandi cell with _ | k
    · rw [dictLookup_append_right hlk]
      simp [dictLookup, hcs]
    · exact dictLookup_append_left hlk

theorem doSeeds_invf : ∀ (seeds : List Cell) (strands : List (List Cell))
    (strandi : List (Cell × ℕ)), seeds.Nodup →
    (∀ x ∈ seeds, x ∉ keysOf strandi) →
    ∀ cell ∈ seeds, ∃ k,
      dictLookup (doSeeds seeds strands strandi).2 cell = some k ∧
      k < (doSeeds seeds strands strandi).1.length ∧
      cell ∈ (doSeeds seeds strands strandi).1.getD k []
  | [], _, _, _, _, cell, hc => absurd hc (List.not_mem_nil cell)
  | s :: rest, strands, strandi, hnodup, hfresh, cell, hc => by
    rw [doSeeds]
    rcases List.mem_cons.mp hc with rfl | hcr
    · refine ⟨strands.length, ?_, ?_, ?_⟩
      · rw [doSeeds_lookup_frozen rest _ _ _ (List.nodup_cons.mp hnodup).1]
        rw [dictLookup_append_right
          (dictLookup_eq_none.mpr (hfresh _ (List.mem_cons_self _ _)))]
        exact lookup_singleton_self _ _
      · rw [doSeeds_strands]
        simp only [List.length_append, List.length_map, List.length_cons,
          List.length_singleton]
        omega
      · rw [doSeeds_strands]
        have hlt : strands.length <
            ((strands ++ [[cell]]) ++ rest.map fun x => [x]).length := by
          simp
        rw [List.getD_eq_getElem _ _ hlt]
        have h1 : ((strands ++ [[cell]]) ++ rest.map fun x => [x])[strands.length] =
            (strands ++ [[cell]]).get ⟨strands.length, by simp⟩ := by
          exact List.getElem_append_left (by simp)
        rw [h1]
        have h2 : (strands ++ [[cell]]).get ⟨strands.length, by simp⟩ = [cell] := by
          rw [List.get_eq_getElem]
          rw [List.getElem_append_right (le_refl strands.length)]
          simp
        rw [h2]
        simp
    · apply doSeeds_invf rest (strands ++ [[s]]) (strandi ++ [(s, strands.length)])
        (List.nodup_cons.mp hnodup).2 ?_ cell hcr
      intro x hx
      rw [keysOf_append]
      simp only [List.mem_append]
      push_neg
      refine ⟨hfresh x (List.mem_cons_of_mem _ hx), ?_⟩
      intro hmem
      have hxs : x = s := by simpa [keysOf] using hmem
      exact (List.nodup_cons.mp hnodup).1 (hxs ▸ hx)

/-- Seeding fresh, duplicate-free, in-grid cells preserves the invariant and
establishes the inner-loop invariants on the doubled seed frontier. -/
theorem seeds_establish {st : DifficultySettings} {adj : Cell → List Cell}
    {strands : List (List Cell)} {strandi : List (Cell × ℕ)}
    (hInv : BInv st.r st.c adj strands strandi) (seeds : List Cell)
    (hnodup : seeds.Nodup) (hgrid : ∀ x ∈ seeds, x ∈ gridCells st.r st.c)
    (hfresh : ∀ x ∈ seeds, x ∉ keysOf strandi) :
    BInv st.r st.c adj (doSeeds seeds strands strandi).1
      (doSeeds seeds strands strandi).2 ∧
    InvF (doSeeds seeds strands strandi).1 (doSeeds seeds strands strandi).2
      (seeds ++ seeds) ∧
    InvDeg adj (seeds ++ seeds) ∧
    strandi <+: (doSeeds seeds strands strandi).2 ∧
    (doSeeds seeds strands strandi).2.length = strandi.length + seeds.length := by
  have hS := doSeeds_strands seeds strands strandi
  have hseednostrand : ∀ x ∈ seeds, ∀ (m : ℕ) (hm : m < strands.length),
      x ∉ strands[m] :=
    fun x hx m hm hmem => hfresh x hx (hInv.strand_keys m hm x hmem)
  have hseedadj : ∀ x ∈ seeds, adj x = [] := fun x hx =>
    hInv.outside_empty x (hseednostrand x hx)
  have hget_old : ∀ (m : ℕ) (hm : m < strands.length),
      ∀ hm2 : m < (doSeeds seeds strands strandi).1.length,
      (doSeeds seeds strands strandi).1[m] = strands[m] := by
    intro m hm hm2
    rw [List.getElem_of_eq hS hm2]
    exact List.getElem_append_left hm
  have hget_new : ∀ (m : ℕ), strands.length ≤ m →
      ∀ hm2 : m < (doSeeds seeds strands strandi).1.length,
      ∃ hms : m - strands.length < seeds.length,
      (doSeeds seeds strands strandi).1[m] = [seeds[m - strands.length]] := by
    intro m hmge hm2
    have hm3 : m < (strands ++ List.map (fun s => [s]) seeds).length := by
      rw [← hS]
      exact hm2
    have hms : m - strands.length < seeds.length := by
      simp only [List.length_append, List.length_map] at hm3
      omega
    refine ⟨hms, ?_⟩
    rw [List.getElem_of_eq hS hm2, List.getElem_append_right hmge]
    simp
  refine ⟨⟨?_, ?_, ?_, ?_, ?_, ?_, ?_⟩, ?_, ?_, doSeeds_grows _ _ _,
    doSeeds_length _ _ _⟩
  · rw [doSeeds_keys]
    exact hInv.keys_nodup.append hnodup fun x hx hx2 => hfresh x hx2 hx
  · rw [doSeeds_keys]
    intro x hx
    rcases List.mem_append.mp hx with hx | hx
    · exact hInv.keys_grid x hx
    · exact hgrid x hx
  · intro m hm
    by_cases hml : m < strands.length
    · rw [hget_old m hml hm]
      exact hInv.strand_ne m hml
    · obtain ⟨hms, heq⟩ := hget_new m (by omega) hm
      rw [heq]
      simp
  · intro m hm cell hcell
    rw [doSeeds_keys]
    by_cases hml : m < strands.length
    · rw [hget_old m hml hm] at hcell
      exact List.mem_append_left _ (hInv.strand_keys m hml cell hcell)
    · obtain ⟨hms, heq⟩ := hget_new m (by omega) hm
      rw [heq] at hcell
      have : cell = seeds[m - strands.length] := by simpa using hcell
      rw [this]
      exact List.mem_append_right _ (List.getElem_mem hms)
  · intro m n hm hn hmn x hx
    by_cases hml : m < strands.length
    · rw [hget_old m hml hm] at hx
      by_cases hnl : n < strands.length
      · rw [hget_old n hnl hn]
        exact hInv.disj m n hml hnl hmn x hx
      · obtain ⟨hns, hneq⟩ := hget_new n (by omega) hn
        rw [hneq]
        intro hcon
        have hxs : x = seeds[n - strands.length] := by simpa using hcon
        exact hfresh x (hxs ▸ List.getElem_mem hns)
          (hInv.strand_keys m hml x hx)
    · obtain ⟨hms, hmeq⟩ := hget_new m (by omega) hm
      rw [hmeq] at hx
      have hxs : x = seeds[m - strands.length] := by simpa using hx
      by_cases hnl : n < strands.length
      · rw [hget_old n hnl hn]
        intro hcon
        exact hfresh x (hxs ▸ List.getElem_mem hms)
          (hInv.strand_keys n hnl x hcon)
      · obtain ⟨hns, hneq⟩ := hget_new n (by omega) hn
        rw [hneq]
        intro hcon
        have hxs2 : x = seeds[n - strands.length] := by simpa using hcon
        have : m - strands.length = n - strands.length :=
          hnodup.getElem_inj_iff.mp (by rw [← hxs, ← hxs2])
        omega
  · intro m hm
    by_cases hml : m < strands.length
    · rw [hget_old m hml hm]
      exact hInv.pathlike m hml
    · obtain ⟨hms, heq⟩ := hget_new m (by omega) hm
      rw [heq]
      refine ⟨[seeds[m - strands.length]], List.Perm.refl _, ⟨by simp, ?_⟩, by simp⟩
      intro a ha
      have haeq : a = seeds[m - strands.length] := by simpa using ha
      rw [haeq, hseedadj _ (List.getElem_mem hms)]
      exact List.Perm.refl _
  · intro z hz
    refine hInv.outside_empty z ?_
    intro m hm
    have hm2 : m < (doSeeds seeds strands strandi).1.length := by
      rw [hS]
      simp only [List.length_append, List.length_map]
      omega
    have := hz m hm2
    rw [hget_old m hm hm2] at this
    exact this
  · intro cell hcell
    have hcs : cell ∈ seeds := by
      rcases List.mem_append.mp hcell with h | h <;> exact h
    exact doSeeds_invf seeds strands strandi hnodup hfresh cell hcs
  · intro z
    by_cases hzs : z ∈ seeds
    · have h1 : cellCount z (seeds ++ seeds) = 2 := by
        rw [cellCount_append, cellCount_eq_one_of_nodup hnodup hzs]
      rw [h1, hseedadj z hzs]
      simp
    · have h1 : cellCount z (seeds ++ seeds) = 0 := by
        apply cellCount_eq_zero
        intro hcon
        rcases List.mem_append.mp hcon with h | h <;> exact hzs h
      rw [h1]
      have := BInv_deg_le_two hInv z
      omega

/-- One outer-loop round always succeeds from an invariant state: it
preserves the invariant, leaves only strands of length at least 2, only
appends to `strandi`, and assigns at least `min endcl (number of unassigned
cells)` new cells. -/
theorem roundStep_spec {st : DifficultySettings} {s : BuildState}
    (hInv : BInv st.r st.c s.adj s.strands s.strandi) :
    ∃ s', roundStep st s = some s' ∧
      BInv st.r st.c s'.adj s'.strands s'.strandi ∧
      (∀ (m : ℕ) (hm : m < s'.strands.length), 1 < s'.strands[m].length) ∧
      s.strandi <+: s'.strandi ∧
      s.strandi.length + min st.endcl
        ((gridCells st.r st.c).filter fun cell =>
          (dictLookup s.strandi cell).isNone).length ≤ s'.strandi.length := by
  have hunodup : ((gridCells st.r st.c).filter fun cell =>
      (dictLookup s.strandi cell).isNone).Nodup :=
    (nodup_gridCells st.r st.c).filter _
  have hshperm := pyShuffle_perm s.g ((gridCells st.r st.c).filter fun cell =>
    (dictLookup s.strandi cell).isNone)
  have hseedsub : (pyShuffle s.g ((gridCells st.r st.c).filter fun cell =>
      (dictLookup s.strandi cell).isNone)).1.take st.endcl <+
      (pyShuffle s.g ((gridCells st.r st.c).filter fun cell =>
        (dictLookup s.strandi cell).isNone)).1 :=
    List.take_sublist _ _
  have hseednodup : ((pyShuffle s.g ((gridCells st.r st.c).filter fun cell =>
      (dictLookup s.strandi cell).isNone)).1.take st.endcl).Nodup :=
    (hseedsub.nodup (hshperm.nodup_iff.mpr hunodup))
  have hseedmem : ∀ x ∈ (pyShuffle s.g ((gridCells st.r st.c).filter fun cell =>
      (dictLookup s.strandi cell).isNone)).1.take st.endcl,
      x ∈ gridCells st.r st.c ∧ (dictLookup s.strandi x).isNone := by
    intro x hx
    have := hshperm.subset (hseedsub.subset hx)
    have hmf := List.mem_filter.mp this
    exact ⟨hmf.1, by simpa using hmf.2⟩
  have hseedgrid : ∀ x ∈ (pyShuffle s.g ((gridCells st.r st.c).filter fun cell =>
      (dictLookup s.strandi cell).isNone)).1.take st.endcl,
      x ∈ gridCells st.r st.c := fun x hx => (hseedmem x hx).1
  have hseedfresh : ∀ x ∈ (pyShuffle s.g ((gridCells st.r st.c).filter fun cell =>
      (dictLookup s.strandi cell).isNone)).1.take st.endcl,
      x ∉ keysOf s.strandi := by
    intro x hx
    have := (hseedmem x hx).2
    rw [Option.isNone_iff_eq_none] at this
    exact dictLookup_eq_none.mp this
  obtain ⟨hInv1, hF1, hD1, hpre1, hlen1⟩ :=
    seeds_establish hInv _ hseednodup hseedgrid hseedfresh
  obtain ⟨gs', hgrow, hInv2, hpre2⟩ := growLoop_spec
    (((pyShuffle s.g ((gridCells st.r st.c).filter fun cell =>
        (dictLookup s.strandi cell).isNone)).1.take st.endcl ++
      (pyShuffle s.g ((gridCells st.r st.c).filter fun cell =>
        (dictLookup s.strandi cell).isNone)).1.take st.endcl).length +
      2 * (st.r * st.c))
    ⟨s.adj,
      (doSeeds ((pyShuffle s.g ((gridCells st.r st.c).filter fun cell =>
        (dictLookup s.strandi cell).isNone)).1.take st.endcl) s.strands s.strandi).1,
      (doSeeds ((pyShuffle s.g ((gridCells st.r st.c).filter fun cell =>
        (dictLookup s.strandi cell).isNone)).1.take st.endcl) s.strands s.strandi).2,
      (pyShuffle s.g ((gridCells st.r st.c).filter fun cell =>
        (dictLookup s.strandi cell).isNone)).1.take st.endcl ++
      (pyShuffle s.g ((gridCells st.r st.c).filter fun cell =>
        (dictLookup s.strandi cell).isNone)).1.take st.endcl,
      (pyShuffle s.g ((gridCells st.r st.c).filter fun cell =>
        (dictLookup s.strandi cell).isNone)).2⟩
    hInv1 hF1 hD1 (by dsimp only; omega)
  obtain ⟨hInv3, hkeep⟩ := prune_spec hInv2
  refine ⟨⟨gs'.adj, gs'.strands.filter fun t => 1 < t.length, gs'.strandi, gs'.g⟩,
    ?_, hInv3, hkeep, ?_, ?_⟩
  · simp only [roundStep]
    rw [hgrow]
    rfl
  · have hpre2' := hpre2
    dsimp only at hpre2'
    exact hpre1.trans hpre2'
  · have h1 := hpre2.length_le
    dsimp only at h1
    have h2 : ((pyShuffle s.g ((gridCells st.r st.c).filter fun cell =>
        (dictLookup s.strandi cell).isNone)).1.take st.endcl).length =
        min st.endcl ((gridCells st.r st.c).filter fun cell =>
          (dictLookup s.strandi cell).isNone).length := by
      rw [List.length_take, hshperm.length_eq]
    dsimp only
    omega

/-- While some grid cell is unassigned, the filtered unassigned list is
nonempty. -/
theorem unassigned_nonempty {r c : ℕ} {strandi : List (Cell × ℕ)}
    (hlt : strandi.length < r * c) :
    0 < ((gridCells r c).filter fun cell =>
      (dictLookup strandi cell).isNone).length := by
  by_contra h0
  push_neg at h0
  have hnil : (gridCells r c).filter (fun cell =>
      (dictLookup strandi cell).isNone) = [] := List.length_eq_zero.mp (by omega)
  have hsub : gridCells r c ⊆ keysOf strandi := by
    intro x hx
    by_contra hxk
    have hnone : dictLookup strandi x = none := dictLookup_eq_none.mpr hxk
    have : x ∈ (gridCells r c).filter fun cell =>
        (dictLookup strandi cell).isNone :=
      List.mem_filter.mpr ⟨hx, by simp [hnone]⟩
    rw [hnil] at this
    exact List.not_mem_nil _ this
  have := ((nodup_gridCells r c).subperm hsub).length_le
  rw [length_gridCells] at this
  have hk : (keysOf strandi).length = strandi.length := List.length_map _ _
  omega

/-- The outer loop succeeds whenever the fuel covers the number of still
unassigned cells: each round assigns at least one cell (its seeds).  On
exit every cell is assigned (`strandi` has exactly `r * c` entries), the
invariant holds, and all surviving strands have length at least 2. -/
theorem buildLoop_spec {st : DifficultySettings} (hend : 1 ≤ st.endcl) :
    ∀ (fuel : ℕ) (s : BuildState),
      BInv st.r st.c s.adj s.strands s.strandi →
      (st.r * st.c ≤ s.strandi.length →
        ∀ (m : ℕ) (hm : m < s.strands.length), 1 < s.strands[m].length) →
      st.r * st.c - s.strandi.length ≤ fuel →
      ∃ s', buildLoop st fuel s = some s' ∧
        BInv st.r st.c s'.adj s'.strands s'.strandi ∧
        s'.strandi.length = st.r * st.c ∧
        (∀ (m : ℕ) (hm : m < s'.strands.length), 1 < s'.strands[m].length) ∧
        s.strandi <+: s'.strandi
  | 0, s, hInv, h21, hfuel => by
    have hge : st.r * st.c ≤ s.strandi.length := by omega
    have hle : s.strandi.length ≤ st.r * st.c :=
      keys_length_le hInv.keys_nodup hInv.keys_grid
    rw [buildLoop, if_neg (by omega)]
    exact ⟨s, rfl, hInv, by omega, h21 hge, List.prefix_refl _⟩
  | fuel + 1, s, hInv, h21, hfuel => by
    by_cases hlt : s.strandi.length < st.r * st.c
    · obtain ⟨s1, hround, hInv1, hkeep1, hpre1, hgrow1⟩ := roundStep_spec hInv
      have hun := @unassigned_nonempty st.r st.c s.strandi hlt
      have hmin : 1 ≤ min st.endcl ((gridCells st.r st.c).filter fun cell =>
          (dictLookup s.strandi cell).isNone).length := by omega
      obtain ⟨s', hloop, hInv', hlen', hall', hpre'⟩ :=
        buildLoop_spec hend fuel s1 hInv1 (fun _ => hkeep1) (by omega)
      refine ⟨s', ?_, hInv', hlen', hall', hpre1.trans hpre'⟩
      rw [buildLoop, if_pos hlt, hround]
      exact hloop
    · have hle : s.strandi.length ≤ st.r * st.c :=
        keys_length_le hInv.keys_nodup hInv.keys_grid
      rw [buildLoop, if_neg hlt]
      exact ⟨s, rfl, hInv, by omega, h21 (by omega), List.prefix_refl _⟩

/-- The strand-building phase always succeeds: fuel `r * c` suffices from
the empty state, the invariant holds at the end, every one of the `r * c`
grid cells is assigned (the keys of `strandi` are a permutation of the
grid), and every surviving strand has length at least 2. -/
theorem buildStrands_spec {st : DifficultySettings} (hend : 1 ≤ st.endcl)
    (g : RandS) :
    ∃ bs, buildStrands st g = some bs ∧
      BInv st.r st.c bs.adj bs.strands bs.strandi ∧
      bs.strandi.length = st.r * st.c ∧
      (∀ (m : ℕ) (hm : m < bs.strands.length), 1 < bs.strands[m].length) ∧
      List.Perm (keysOf bs.strandi) (gridCells st.r st.c) := by
  have hInv0 : BInv st.r st.c (fun _ => [])
      ([] : List (List Cell)) ([] : List (Cell × ℕ)) := by
    refine ⟨List.nodup_nil, ?_, ?_, ?_, ?_, ?_, ?_⟩
    · intro x hx
      exact absurd hx (List.not_mem_nil _)
    · intro m hm
      exact absurd hm (by simp)
    · intro m hm
      exact absurd hm (by simp)
    · intro m n hm
      exact absurd hm (by simp)
    · intro m hm
      exact absurd hm (by simp)
    · intro cell _
      rfl
  obtain ⟨bs, hloop, hInv, hlen, hall, _⟩ := buildLoop_spec hend (st.r * st.c)
    ⟨fun _ => [], [], [], g⟩ hInv0
    (fun _ m hm => absurd hm (by simp)) (by simp)
  refine ⟨bs, hloop, hInv, hlen, hall, ?_⟩
  have hsubp := hInv.keys_nodup.subperm hInv.keys_grid
  have hperm := hsubp.perm_of_length_le (by
    rw [length_gridCells, keysOf, List.length_map]
    omega)
  exact hperm

/-! ### The stable descending sort of `strands.sort(key=len, reverse=True)` -/

theorem insertLenDesc_perm (a : List Cell) :
    ∀ l, List.Perm (insertLenDesc a l) (a :: l)
  | [] => List.Perm.refl _
  | b :: l => by
    unfold insertLenDesc
    split
    · exact ((insertLenDesc_perm a l).cons b).trans (List.Perm.swap a b l)
    · exact List.Perm.refl _

theorem insertLenDesc_sorted {l : List (List Cell)}
    (h : List.Pairwise (fun x y : List Cell => y.length ≤ x.length) l)
    (a : List Cell) :
    List.Pairwise (fun x y : List Cell => y.length ≤ x.length)
      (insertLenDesc a l) := by
  induction l with
  | nil => simp [insertLenDesc]
  | cons b l ih =>
    rw [List.pairwise_cons] at h
    unfold insertLenDesc
    split
    · rw [List.pairwise_cons]
      refine ⟨?_, ih h.2⟩
      intro y hy
      have := (insertLenDesc_perm a l).subset hy
      rcases List.mem_cons.mp this with rfl | hyl
      · assumption
      · exact h.1 y hyl
    · rw [List.pairwise_cons]
      refine ⟨?_, List.pairwise_cons.mpr h⟩
      intro y hy
      rcases List.mem_cons.mp hy with rfl | hyl
      · omega
      · have := h.1 y hyl
        omega

theorem insertLenDesc_filter_ne {a : List Cell} {k : ℕ} (h : a.length ≠ k) :
    ∀ l : List (List Cell),
      (insertLenDesc a l).filter (fun s => s.length = k) =
        l.filter fun s => s.length = k
  | [] => by simp [insertLenDesc, List.filter, h]
  | b :: l => by
    unfold insertLenDesc
    split
    · rw [List.filter_cons, List.filter_cons, insertLenDesc_filter_ne h l]
    · rw [List.filter_cons (x := a)]
      simp [h]

theorem insertLenDesc_filter_eq {a : List Cell} :
    ∀ {l : List (List Cell)},
      List.Pairwise (fun x y : List Cell => y.length ≤ x.length) l →
      (insertLenDesc a l).filter (fun s => s.length = a.length) =
        (l.filter fun s => s.length = a.length) ++ [a]
  | [], _ => by simp [insertLenDesc, List.filter]
  | b :: l, h => by
    rw [List.pairwise_cons] at h
    unfold insertLenDesc
    split
    · rw [List.filter_cons, List.filter_cons, insertLenDesc_filter_eq h.2]
      split <;> simp
    · rename_i hlt
      push_neg at hlt
      have hbl : ¬ (b.length = a.length) := by omega
      have hnil : (l.filter fun s => s.length = a.length) = [] := by
        rw [List.filter_eq_nil_iff]
        intro x hx
        have := h.1 x hx
        simp only [decide_eq_true_eq]
        omega
      rw [List.filter_cons, List.filter_cons]
      simp [hbl, hnil]

theorem sortLenDesc_aux :
    ∀ (l acc : List (List Cell)),
      List.Pairwise (fun x y : List Cell => y.length ≤ x.length) acc →
      List.Pairwise (fun x y : List Cell => y.length ≤ x.length)
        (l.foldl (fun acc x => insertLenDesc x acc) acc) ∧
      List.Perm (l.foldl (fun acc x => insertLenDesc x acc) acc) (acc ++ l) ∧
      ∀ k, (l.foldl (fun acc x => insertLenDesc x acc) acc).filter
          (fun s => s.length = k) =
        (acc.filter fun s => s.length = k) ++ (l.filter fun s => s.length = k)
  | [], acc, h => by simp [h]
  | x :: l, acc, h => by
    obtain ⟨hs, hp, hf⟩ := sortLenDesc_aux l (insertLenDesc x acc)
      (insertLenDesc_sorted h x)
    refine ⟨hs, ?_, ?_⟩
    · show List.Perm (l.foldl (fun acc x => insertLenDesc x acc)
        (insertLenDesc x acc)) (acc ++ x :: l)
      refine hp.trans ?_
      refine (List.Perm.append_right l (insertLenDesc_perm x acc)).trans ?_
      exact List.perm_middle.symm
    · intro k
      show (l.foldl (fun acc x => insertLenDesc x acc)
        (insertLenDesc x acc)).filter (fun s => s.length = k) = _
      rw [hf k, List.filter_cons]
      by_cases hxk : x.length = k
      · subst hxk
        rw [insertLenDesc_filter_eq h]
        simp
      · rw [insertLenDesc_filter_ne hxk]
        simp [hxk]

theorem sortLenDesc_sorted (l : List (List Cell)) :
    List.Pairwise (fun x y : List Cell => y.length ≤ x.length)
      (sortLenDesc l) :=
  (sortLenDesc_aux l [] List.Pairwise.nil).1

theorem sortLenDesc_perm (l : List (List Cell)) :
    List.Perm (sortLenDesc l) l := by
  have := (sortLenDesc_aux l [] List.Pairwise.nil).2.1
  simpa using this

theorem sortLenDesc_stable (l : List (List Cell)) (k : ℕ) :
    (sortLenDesc l).filter (fun s => s.length = k) =
      l.filter fun s => s.length = k := by
  have := (sortLenDesc_aux l [] List.Pairwise.nil).2.2 k
  simpa using this

/-! ### `cleanse` over a whole list of strands -/

theorem forall₂_mem_left {α β : Type _} {R : α → β → Prop} :
    ∀ {l₁ : List α} {l₂ : List β}, List.Forall₂ R l₁ l₂ →
      ∀ a ∈ l₁, ∃ b ∈ l₂, R a b := by
  intro l₁ l₂ h
  induction h with
  | nil => intro a ha; exact absurd ha (List.not_mem_nil _)
  | cons hR _ ih =>
    intro a ha
    rcases List.mem_cons.mp ha with rfl | ha2
    · exact ⟨_, List.mem_cons_self _ _, hR⟩
    · obtain ⟨b, hb, hRb⟩ := ih a ha2
      exact ⟨b, List.mem_cons_of_mem _ hb, hRb⟩

theorem pairwise_disj_of_forall₂ {cl ls : List (List Cell)}
    (hf : List.Forall₂ (fun p s => p ⊆ s) cl ls)
    (hp : List.Pairwise (fun s t : List Cell => ∀ x ∈ s, x ∉ t) ls) :
    List.Pairwise (fun p q : List Cell => ∀ x ∈ p, x ∉ q) cl := by
  induction hf with
  | nil => exact List.Pairwise.nil
  | cons hR hrest ih =>
    rename_i p s cl' ls'
    rw [List.pairwise_cons] at hp
    rw [List.pairwise_cons]
    refine ⟨?_, ih hp.2⟩
    intro q hq x hxp hxq
    obtain ⟨t, ht, hqt⟩ := forall₂_mem_left hrest q hq
    exact hp.1 t ht x (hR hxp) (hqt hxq)

/-- `cleanseAll` succeeds on a list of path-shaped strands and returns one
path per strand, each a duplicate-free geometric path over a subset of its
strand's cells. -/
theorem cleanseAll_spec (st : DifficultySettings) (adj : Cell → List Cell) :
    ∀ (ls : List (List Cell)) (g : RandS),
      (∀ s ∈ ls, ∃ ord, List.Perm s ord ∧ IsPathOrd adj ord ∧
        List.Chain' Adjacent ord ∧ 2 ≤ ord.length) →
      ∃ cl g₂, cleanseAll st adj ls g = some (cl, g₂) ∧
        cl.length = ls.length ∧
        List.Forall₂ (fun path s => path ⊆ s ∧ path.Nodup ∧
          List.Chain' Adjacent path) cl ls
  | [], g, _ => ⟨[], g, rfl, rfl, List.Forall₂.nil⟩
  | s :: rest, g, h => by
    obtain ⟨ord, hperm, hp, hchain, h2⟩ := h s (List.mem_cons_self _ _)
    obtain ⟨t, path, g₁, hcl, -, -, -, -, ord', hord', a, hpath⟩ :=
      @cleanse_spec st adj s ord g hperm hp h2
    obtain ⟨cl, g₂, hrest, hlen, hfa⟩ := cleanseAll_spec st adj rest g₁
      fun x hx => h x (List.mem_cons_of_mem _ hx)
    have hsub : path ⊆ s := by
      intro x hx
      rw [hpath] at hx
      have hx2 : x ∈ ord' := (List.drop_subset _ _) ((List.take_subset _ _) hx)
      have hx3 : x ∈ ord := by
        rcases hord' with rfl | rfl
        · exact hx2
        · exact List.mem_reverse.mp hx2
      exact hperm.mem_iff.mpr hx3
    have hordnodup : ord'.Nodup := by
      rcases hord' with rfl | rfl
      · exact hp.1
      · exact List.nodup_reverse.mpr hp.1
    have hnodup : path.Nodup := by
      rw [hpath]
      exact hordnodup.sublist ((List.take_sublist _ _).trans (List.drop_sublist _ _))
    have hchain' : List.Chain' Adjacent ord' := by
      rcases hord' with rfl | rfl
      · exact hchain
      · exact chain'_adjacent_reverse hchain
    have hchainp : List.Chain' Adjacent path := by
      rw [hpath]
      exact hchain'.infix (((List.take_prefix _ _).isInfix).trans
        ((List.drop_suffix _ _).isInfix))
    refine ⟨path :: cl, g₂, ?_, by simp [hlen], List.Forall₂.cons
      ⟨hsub, hnodup, hchainp⟩ hfa⟩
    show (cleanse st adj s g).bind _ = _
    rw [hcl]
    show (cleanseAll st adj rest g₁).map _ = _
    rw [hrest]
    rfl

theorem BInv_pathlike_mem {r c : ℕ} {adj : Cell → List Cell}
    {strands : List (List Cell)} {strandi : List (Cell × ℕ)}
    (h : BInv r c adj strands strandi) {strand : List Cell}
    (hmem : strand ∈ strands) :
    ∃ ord, List.Perm strand ord ∧ IsPathOrd adj ord ∧
      List.Chain' Adjacent ord := by
  obtain ⟨m, hm, hmeq⟩ := List.getElem_of_mem hmem
  rw [← hmeq]
  exact h.pathlike m hm

theorem BInv_pairwise_disj {r c : ℕ} {adj : Cell → List Cell}
    {strands : List (List Cell)} {strandi : List (Cell × ℕ)}
    (h : BInv r c adj strands strandi) :
    List.Pairwise (fun s t : List Cell => ∀ x ∈ s, x ∉ t) strands := by
  rw [List.pairwise_iff_getElem]
  intro i j hi hj hij
  exact h.disj i j hi hj (Nat.ne_of_lt hij)

theorem BInv_cells_grid {r c : ℕ} {adj : Cell → List Cell}
    {strands : List (List Cell)} {strandi : List (Cell × ℕ)}
    (h : BInv r c adj strands strandi) {strand : List Cell}
    (hmem : strand ∈ strands) : ∀ cell ∈ strand, cell ∈ gridCells r c := by
  obtain ⟨m, hm, hmeq⟩ := List.getElem_of_mem hmem
  intro cell hcell
  exact h.keys_grid cell (h.strand_keys m hm cell (hmeq ▸ hcell))

/-- The symmetric cell-disjointness relation on paths. -/
theorem disj_symmetric :
    Symmetric (fun p q : List Cell => ∀ x ∈ p, x ∉ q) := by
  intro p q h x hxq hxp
  exact h x hxp hxq

/-- Master specification of one attempt: `_try_generating_paths` always
succeeds (given at least one endpoint pair is requested), and returns at
most `endcl` paths, pairwise cell-disjoint, each duplicate-free, inside the
grid, and 4-adjacency-connected in order. -/
theorem tryGeneratingPaths_spec (st : DifficultySettings)
    (hend : 1 ≤ st.endcl) (g : RandS) :
    ∃ pr, tryGeneratingPaths st g = some pr ∧
      pr.1.length ≤ st.endcl ∧
      List.Pairwise (fun p q : List Cell => ∀ x ∈ p, x ∉ q) pr.1 ∧
      ∀ path ∈ pr.1, path.Nodup ∧
        (∀ cell ∈ path, cell ∈ gridCells st.r st.c) ∧
        List.Chain' Adjacent path := by
  obtain ⟨bs, hbs, hInv, hilen, hall, hkeys⟩ := buildStrands_spec hend g
  have hperm1 : List.Perm (pyShuffle bs.g bs.strands).1 bs.strands :=
    pyShuffle_perm _ _
  have hperm2 : List.Perm (sortLenDesc (pyShuffle bs.g bs.strands).1)
      bs.strands := (sortLenDesc_perm _).trans hperm1
  have htakesub : (sortLenDesc (pyShuffle bs.g bs.strands).1).take st.endcl ⊆
      bs.strands := fun x hx => hperm2.subset (List.take_subset _ _ hx)
  have hprep : ∀ s ∈ (sortLenDesc (pyShuffle bs.g bs.strands).1).take st.endcl,
      ∃ ord, List.Perm s ord ∧ IsPathOrd bs.adj ord ∧
        List.Chain' Adjacent ord ∧ 2 ≤ ord.length := by
    intro s hs
    have hsmem := htakesub hs
    obtain ⟨ord, hperm, hp, hchain⟩ := BInv_pathlike_mem hInv hsmem
    obtain ⟨m, hm, hmeq⟩ := List.getElem_of_mem hsmem
    have h2 : 1 < s.length := hmeq ▸ hall m hm
    exact ⟨ord, hperm, hp, hchain, by
      rw [← hperm.length_eq]
      omega⟩
  obtain ⟨cl, g₂, hclall, hcllen, hfa⟩ := cleanseAll_spec st bs.adj
    ((sortLenDesc (pyShuffle bs.g bs.strands).1).take st.endcl)
    (pyShuffle bs.g bs.strands).2 hprep
  have hpermfin : List.Perm (pyShuffle g₂ cl).1 cl := pyShuffle_perm _ _
  refine ⟨pyShuffle g₂ cl, ?_, ?_, ?_, ?_⟩
  · unfold tryGeneratingPaths
    rw [hbs]
    show (cleanseAll st bs.adj
      ((sortLenDesc (pyShuffle bs.g bs.strands).1).take st.endcl)
      (pyShuffle bs.g bs.strands).2).map (fun pr => pyShuffle pr.2 pr.1) = _
    rw [hclall]
    rfl
  · rw [hpermfin.length_eq, hcllen, List.length_take]
    omega
  · have hdisjS : List.Pairwise (fun s t : List Cell => ∀ x ∈ s, x ∉ t)
        ((sortLenDesc (pyShuffle bs.g bs.strands).1).take st.endcl) :=
      ((hperm2.pairwise_iff fun hxy => disj_symmetric hxy).mpr
        (BInv_pairwise_disj hInv)).sublist (List.take_sublist _ _)
    have hdisjcl : List.Pairwise (fun p q : List Cell => ∀ x ∈ p, x ∉ q) cl :=
      pairwise_disj_of_forall₂ (List.Forall₂.imp (fun a b hab => hab.1) hfa) hdisjS
    exact (hpermfin.pairwise_iff fun hxy => disj_symmetric hxy).mpr hdisjcl
  · intro path hpath
    have hpathcl : path ∈ cl := hpermfin.subset hpath
    obtain ⟨s, hs, hsub, hnodup, hchain⟩ := forall₂_mem_left hfa path hpathcl
    refine ⟨hnodup, ?_, hchain⟩
    intro cell hcell
    exact BInv_cells_grid hInv (htakesub hs) cell (hsub hcell)

/-! ### The acceptance loop and the maximum selection -/

theorem collectAcceptable_zero (st : DifficultySettings) (fuel : ℕ) (g : RandS) :
    collectAcceptable st fuel 0 g = some ([], g) := by
  cases fuel <;> rfl

/-- Each collected attempt is the output of one `_try_generating_paths`
call, so any property of every attempt holds of every collected one;
moreover exactly `need` attempts are collected, they are exactly the first
`need` acceptable members of the attempt stream (rejected attempts are
passed over without counting), and all of them are acceptable. -/
theorem collectAcceptable_spec {st : DifficultySettings}
    (P : List (List Cell) → Prop)
    (hP : ∀ (g : RandS) pr, tryGeneratingPaths st g = some pr → P pr.1) :
    ∀ (fuel need : ℕ) (g : RandS) pr,
      collectAcceptable st fuel need g = some pr →
      pr.1.length = need ∧
      pr.1 = ((attemptStream st fuel g).filter fun a => acceptable st a).take
        need ∧
      (∀ x ∈ pr.1, acceptable st x = true) ∧
      ∀ x ∈ pr.1, P x
  | fuel, 0, g, pr, h => by
    rw [collectAcceptable_zero] at h
    have : pr = ([], g) := by
      injection h with h2
      exact h2.symm
    subst this
    refine ⟨rfl, by simp, ?_, ?_⟩ <;> · intro x hx; exact absurd hx (by simp)
  | 0, need + 1, g, pr, h => by
    exact Option.noConfusion h
  | fuel + 1, need + 1, g, pr, h => by
    have hx : collectAcceptable st (fuel + 1) (need + 1) g =
        (tryGeneratingPaths st g).bind fun pr0 =>
          if acceptable st pr0.1 then
            (collectAcceptable st fuel need pr0.2).map fun qr =>
              (pr0.1 :: qr.1, qr.2)
          else collectAcceptable st fuel (need + 1) pr0.2 := rfl
    rw [hx] at h
    rcases htry : tryGeneratingPaths st g with _ | pr0
    · rw [htry] at h
      exact absurd h (by simp)
    rw [htry] at h
    have hstream : attemptStream st (fuel + 1) g =
        pr0.1 :: attemptStream st fuel pr0.2 := by
      rw [show attemptStream st (fuel + 1) g =
        (match tryGeneratingPaths st g with
          | none => []
          | some pr1 => pr1.1 :: attemptStream st fuel pr1.2) from rfl, htry]
    simp only [Option.some_bind] at h
    by_cases hacc : acceptable st pr0.1
    · rw [if_pos hacc] at h
      rcases hrec : collectAcceptable st fuel need pr0.2 with _ | qr
      · rw [hrec] at h
        exact absurd h (by simp)
      rw [hrec] at h
      simp only [Option.map_some'] at h
      have hpr : pr = (pr0.1 :: qr.1, qr.2) := by
        injection h with h2
        exact h2.symm
      subst hpr
      obtain ⟨hlen, hfil, haccall, hprop⟩ :=
        collectAcceptable_spec P hP fuel need pr0.2 qr hrec
      refine ⟨by simp [hlen], ?_, ?_, ?_⟩
      · rw [hstream, List.filter_cons, if_pos (by simpa using hacc)]
        rw [List.take_succ_cons, ← hfil]
      · intro x hxm
        rcases List.mem_cons.mp hxm with rfl | hxm2
        · exact hacc
        · exact haccall x hxm2
      · intro x hxm
        rcases List.mem_cons.mp hxm with rfl | hxm2
        · exact hP g pr0 htry
        · exact hprop x hxm2
    · rw [if_neg hacc] at h
      obtain ⟨hlen, hfil, haccall, hprop⟩ :=
        collectAcceptable_spec P hP fuel (need + 1) pr0.2 pr h
      refine ⟨hlen, ?_, haccall, hprop⟩
      rw [hstream, List.filter_cons, if_neg (by simpa using hacc)]
      exact hfil

theorem foldl_max_spec {α : Type _} (f : α → ℝ) :
    ∀ (l : List α) (a : α),
      ∃ (i : ℕ) (hi : i < (a :: l).length),
        (a :: l).get ⟨i, hi⟩ =
          l.foldl (fun best x => if f best < f x then x else best) a ∧
        (∀ (j : ℕ) (hj : j < (a :: l).length),
          f ((a :: l).get ⟨j, hj⟩) ≤ f ((a :: l).get ⟨i, hi⟩)) ∧
        (∀ (j : ℕ) (hj : j < (a :: l).length), j < i →
          f ((a :: l).get ⟨j, hj⟩) < f ((a :: l).get ⟨i, hi⟩))
  | [], a => by
    refine ⟨0, by simp, rfl, ?_, ?_⟩
    · intro j hj
      have : j = 0 := by simp at hj; omega
      subst this
      exact le_refl _
    · intro j hj hji
      omega
  | x :: l, a => by
    by_cases hax : f a < f x
    · obtain ⟨i, hi, heq, hmax, hstrict⟩ := foldl_max_spec f l x
      refine ⟨i + 1, by simpa using hi, ?_, ?_, ?_⟩
      · show (x :: l).get ⟨i, hi⟩ = (x :: l).foldl _ a
        rw [List.foldl_cons]
        rw [if_pos hax]
        exact heq
      · intro j hj
        match j with
        | 0 =>
          show f a ≤ _
          have h0 : f x ≤ f ((x :: l).get ⟨i, hi⟩) := hmax 0 (by simp)
          show f a ≤ f ((x :: l).get ⟨i, hi⟩)
          exact le_of_lt (lt_of_lt_of_le hax h0)
        | j + 1 =>
          show f ((x :: l).get ⟨j, by simpa using hj⟩) ≤ f ((x :: l).get ⟨i, hi⟩)
          exact hmax j (by simpa using hj)
      · intro j hj hji
        match j with
        | 0 =>
          have h0 : f x ≤ f ((x :: l).get ⟨i, hi⟩) := hmax 0 (by simp)
          show f a < f ((x :: l).get ⟨i, hi⟩)
          exact lt_of_lt_of_le hax h0
        | j + 1 =>
          show f ((x :: l).get ⟨j, by simpa using hj⟩) < f ((x :: l).get ⟨i, hi⟩)
          exact hstrict j (by simpa using hj) (by omega)
    · obtain ⟨i, hi, heq, hmax, hstrict⟩ := foldl_max_spec f l a
      have hxa : f x ≤ f a := le_of_not_lt hax
      match i, hi with
      | 0, hi =>
        refine ⟨0, by simp, ?_, ?_, ?_⟩
        · show a = (x :: l).foldl _ a
          rw [List.foldl_cons]
          rw [if_neg hax]
          exact heq
        · intro j hj
          match j with
          | 0 => exact le_refl _
          | 1 =>
            show f x ≤ f a
            exact hxa
          | j + 2 =>
            show f ((l).get ⟨j, by simpa using hj⟩) ≤ f a
            exact hmax (j + 1) (by simpa using hj)
        · intro j hj hji
          omega
      | i + 1, hi =>
        have hil : i < l.length := by simpa using hi
        refine ⟨i + 2, by simpa using hi, ?_, ?_, ?_⟩
        · show (l.get ⟨i, hil⟩) = (x :: l).foldl _ a
          rw [List.foldl_cons]
          rw [if_neg hax]
          exact heq
        · intro j hj
          match j with
          | 0 =>
            show f a ≤ f (l.get ⟨i, hil⟩)
            exact hmax 0 (by simp)
          | 1 =>
            show f x ≤ f (l.get ⟨i, hil⟩)
            exact le_trans hxa (hmax 0 (by simp))
          | j + 2 =>
            show f (l.get ⟨j, by simpa using hj⟩) ≤ f (l.get ⟨i, hil⟩)
            exact hmax (j + 1) (by simpa using hj)
        · intro j hj hji
          match j with
          | 0 =>
            show f a < f (l.get ⟨i, hil⟩)
            exact hstrict 0 (by simp) (by omega)
          | 1 =>
            show f x < f (l.get ⟨i, hil⟩)
            exact lt_of_le_of_lt hxa (hstrict 0 (by simp) (by omega))
          | j + 2 =>
            show f (l.get ⟨j, by simpa using hj⟩) < f (l.get ⟨i, hil⟩)
            exact hstrict (j + 1) (by simpa using hj) (by omega)

/-- Python's `max(xs, key=f)` returns an element of maximal key, and every
element strictly before it has a strictly smaller key (ties are broken in
favour of the first maximal element). -/
theorem pymaxBy_spec {α : Type _} (f : α → ℝ) {l : List α} {a : α}
    (h : pymaxBy f l = some a) :
    ∃ (i : ℕ) (hi : i < l.length), l.get ⟨i, hi⟩ = a ∧
      (∀ (j : ℕ) (hj : j < l.length), f (l.get ⟨j, hj⟩) ≤ f a) ∧
      ∀ (j : ℕ) (hj : j < l.length), j < i → f (l.get ⟨j, hj⟩) < f a := by
  match l with
  | [] => exact absurd h (by rw [pymaxBy]; simp)
  | b :: t =>
    rw [pymaxBy, Option.some_inj] at h
    obtain ⟨i, hi, heq, hmax, hstrict⟩ := foldl_max_spec f t b
    rw [h] at heq
    exact ⟨i, hi, heq, fun j hj => heq ▸ hmax j hj,
      fun j hj hji => heq ▸ hstrict j hj hji⟩

theorem pymaxBy_mem {α : Type _} (f : α → ℝ) {l : List α} {a : α}
    (h : pymaxBy f l = some a) : a ∈ l := by
  obtain ⟨i, hi, heq, -, -⟩ := pymaxBy_spec f h
  rw [← heq]
  exact List.get_mem l i hi

/-! ### `strandi` entries are never overwritten -/

theorem dictLookup_extend {d₁ d₂ : List (Cell × ℕ)} {cell : Cell} {k : ℕ}
    (hpre : d₁ <+: d₂) (h : dictLookup d₁ cell = some k) :
    dictLookup d₂ cell = some k := by
  obtain ⟨tail, rfl⟩ := hpre
  exact dictLookup_append_left h

theorem growStep_strandi_grows {st : DifficultySettings} {gs gs' : GrowState}
    (h : growStep st gs = some gs') : gs.strandi <+: gs'.strandi := by
  rcases hrp : randpop gs.g gs.frontier with _ | ⟨cell, frontier1, g1⟩
  · rw [growStep, hrp] at h
    exact Option.noConfusion h
  rcases hk : dictLookup gs.strandi cell with _ | k
  · have hnone : growStep st gs = none := by
      unfold growStep
      rw [hrp, Option.some_bind]
      simp only
      rw [hk]
    rw [hnone] at h
    exact Option.noConfusion h
  rcases hn : goodNeighbors st.r st.c gs.strandi cell with _ | ⟨n0, nrest⟩
  · rw [growStep_eq_nogrow hrp hk hn, Option.some_inj] at h
    rw [← h]
  rcases hch : pyChoice g1 (n0 :: nrest) with _ | ⟨nc, g2⟩
  · rw [show pyChoice g1 (n0 :: nrest) =
      some ((n0 :: nrest).getD (randrange g1 (n0 :: nrest).length).1 n0,
        (randrange g1 (n0 :: nrest).length).2) from rfl] at hch
    exact Option.noConfusion hch
  by_cases hklen : k < gs.strands.length
  · rw [growStep_eq_grow hrp hk hn hch hklen, Option.some_inj] at h
    rw [← h]
    exact ⟨[(nc, k)], rfl⟩
  · have hnone : growStep st gs = none := by
      unfold growStep
      rw [hrp, Option.some_bind]
      simp only
      rw [hk, hn, hch]
      show (if k < gs.strands.length then
          some (⟨fun z =>
              if z = cell then gs.adj cell ++ [nc]
              else if z = nc then gs.adj nc ++ [cell]
              else gs.adj z,
            gs.strands.set k (gs.strands.getD k [] ++ [nc]),
            gs.strandi ++ [(nc, k)], frontier1 ++ [nc], g2⟩ : GrowState)
        else none) = none
      rw [if_neg hklen]
    rw [hnone] at h
    exact Option.noConfusion h

theorem growLoop_strandi_grows {st : DifficultySettings} :
    ∀ (fuel : ℕ) {gs gs' : GrowState},
      growLoop st fuel gs = some gs' → gs.strandi <+: gs'.strandi
  | 0, gs, gs', h => by
    rw [growLoop] at h
    by_cases hfe : gs.frontier = []
    · rw [if_pos hfe, Option.some_inj] at h
      rw [← h]
    · rw [if_neg hfe] at h
      exact Option.noConfusion h
  | fuel + 1, gs, gs', h => by
    rw [growLoop] at h
    by_cases hfe : gs.frontier = []
    · rw [if_pos hfe, Option.some_inj] at h
      rw [← h]
    · rw [if_neg hfe] at h
      rcases hstep : growStep st gs with _ | gs1
      · rw [hstep] at h
        exact Option.noConfusion h
      rw [hstep, Option.some_bind] at h
      exact (growStep_strandi_grows hstep).trans
        (growLoop_strandi_grows fuel h)

theorem doSeeds_strandi_grows :
    ∀ (seeds : List Cell) (strands : List (List Cell))
      (strandi : List (Cell × ℕ)),
      strandi <+: (doSeeds seeds strands strandi).2
  | [], strands, strandi => List.prefix_refl _
  | s :: rest, strands, strandi => by
    rw [doSeeds]
    exact List.IsPrefix.trans ⟨[(s, strands.length)], rfl⟩
      (doSeeds_strandi_grows rest _ _)

theorem roundStep_strandi_grows {st : DifficultySettings} {s s' : BuildState}
    (h : roundStep st s = some s') : s.strandi <+: s'.strandi := by
  simp only [roundStep] at h
  rcases hgl : growLoop st
      (((pyShuffle s.g ((gridCells st.r st.c).filter fun cell =>
          (dictLookup s.strandi cell).isNone)).1.take st.endcl ++
        (pyShuffle s.g ((gridCells st.r st.c).filter fun cell =>
          (dictLookup s.strandi cell).isNone)).1.take st.endcl).length +
        2 * (st.r * st.c))
      ⟨s.adj,
        (doSeeds ((pyShuffle s.g ((gridCells st.r st.c).filter fun cell =>
          (dictLookup s.strandi cell).isNone)).1.take st.endcl)
          s.strands s.strandi).1,
        (doSeeds ((pyShuffle s.g ((gridCells st.r st.c).filter fun cell =>
          (dictLookup s.strandi cell).isNone)).1.take st.endcl)
          s.strands s.strandi).2,
        (pyShuffle s.g ((gridCells st.r st.c).filter fun cell =>
          (dictLookup s.strandi cell).isNone)).1.take st.endcl ++
        (pyShuffle s.g ((gridCells st.r st.c).filter fun cell =>
          (dictLookup s.strandi cell).isNone)).1.take st.endcl,
        (pyShuffle s.g ((gridCells st.r st.c).filter fun cell =>
          (dictLookup s.strandi cell).isNone)).2⟩ with _ | gs'
  · rw [hgl] at h
    exact Option.noConfusion h
  · rw [hgl, Option.map_some'] at h
    have hpre := growLoop_strandi_grows _ hgl
    dsimp only at hpre
    rw [Option.some_inj] at h
    rw [← h]
    exact (doSeeds_strandi_grows _ _ _).trans hpre

theorem buildLoop_strandi_grows {st : DifficultySettings} :
    ∀ (fuel : ℕ) {s s' : BuildState},
      buildLoop st fuel s = some s' → s.strandi <+: s'.strandi
  | 0, s, s', h => by
    rw [buildLoop] at h
    by_cases hlt : s.strandi.length < st.r * st.c
    · rw [if_pos hlt] at h
      exact Option.noConfusion h
    · rw [if_neg hlt, Option.some_inj] at h
      rw [← h]
  | fuel + 1, s, s', h => by
    rw [buildLoop] at h
    by_cases hlt : s.strandi.length < st.r * st.c
    · rw [if_pos hlt] at h
      rcases hround : roundStep st s with _ | s1
      · rw [hround] at h
        exact Option.noConfusion h
      rw [hround, Option.some_bind] at h
      exact (roundStep_strandi_grows hround).trans
        (buildLoop_strandi_grows fuel h)
    · rw [if_neg hlt, Option.some_inj] at h
      rw [← h]

/-! ### The ten claims -/

/-- Claim C4: `_acceptable` returns `True` exactly when every path of the
attempt is at least `pathl` long and has endpoints at Manhattan distance at
least `distl` (one violating path rejects the whole attempt), and every
attempt the acceptance loop yields satisfies both conditions for all of its
paths. -/
theorem C4_acceptable_iff (st : DifficultySettings) :
    (∀ paths : List (List Cell), acceptable st paths = true ↔
      ∀ path ∈ paths, st.pathl ≤ (path.length : ℤ) ∧
        st.distl ≤ dist (path.headD (0, 0)).1 (path.headD (0, 0)).2
          (path.getLastD (0, 0)).1 (path.getLastD (0, 0)).2) ∧
    ∀ (fuel need : ℕ) (g : RandS) pr,
      collectAcceptable st fuel need g = some pr →
      ∀ x ∈ pr.1, acceptable st x = true := by
  constructor
  · intro paths
    unfold acceptable
    rw [List.all_eq_true]
    constructor
    · intro h path hmem
      have := h path hmem
      simpa using this
    · intro h path hmem
      have := h path hmem
      simpa using this
  · intro fuel need g pr h
    exact (collectAcceptable_spec (fun _ => True) (fun _ _ _ => trivial)
      fuel need g pr h).2.2.1

/-- Claim C9: generation is deterministic — two calls with equal settings
and identically seeded random sources return identical results, both for a
single attempt and for the full `generate_paths`. -/
theorem C9_deterministic {st₁ st₂ : DifficultySettings} (fuel : ℕ)
    {g₁ g₂ : RandS} (hst : st₁ = st₂) (hg : g₁ = g₂) :
    tryGeneratingPaths st₁ g₁ = tryGeneratingPaths st₂ g₂ ∧
    generate_paths st₁ fuel g₁ = generate_paths st₂ fuel g₂ := by
  subst hst
  subst hg
  exact ⟨rfl, rfl⟩

theorem C9_witness : stW = stW ∧ ([] : RandS) = [] ∧
    (tryGeneratingPaths stW [] = tryGeneratingPaths stW [] ∧
      generate_paths stW 1 [] = generate_paths stW 1 []) :=
  ⟨rfl, rfl, C9_deterministic 1 rfl rfl⟩

/-- Claim C3 (corrected): `cleanse`'s walk deque starts with the start cell
seeded twice, so for a strand of `L` cells the sequence `seq` has `L + 1`
entries: the trim bound is `min(L + 1 - distl, 2)`, not `min(L - distl, 2)`;
when the bound is positive a trim amount `t` is drawn in `[0, bound]`, each
trim unit removes a cell from a random end, one further cell is removed
from the front, and the returned path keeps exactly `L - t` of the strand's
cells (a contiguous block of the path order or its reverse), not
`L - t - 1`. -/
theorem C3_trim_corrected {st : DifficultySettings} {adj : Cell → List Cell}
    {strand ord : List Cell} (g : RandS) (hperm : List.Perm strand ord)
    (hp : IsPathOrd adj ord) (h2 : 2 ≤ ord.length) :
    ∃ (t : ℕ) (path : List Cell) (g₂ : RandS),
      cleanse st adj strand g = some (path, g₂) ∧ t ≤ 2 ∧
      (0 < min ((strand.length : ℤ) + 1 - st.distl) 2 →
        (t : ℤ) ≤ min ((strand.length : ℤ) + 1 - st.distl) 2) ∧
      (min ((strand.length : ℤ) + 1 - st.distl) 2 ≤ 0 → t = 0) ∧
      path.length = strand.length - t ∧
      ∃ ord', (ord' = ord ∨ ord' = ord.reverse) ∧
        ∃ a, path = (ord'.drop a).take (ord.length - t) :=
  cleanse_spec g hperm hp h2

theorem C3_witness :
    List.Perm ([((0 : ℤ), (0 : ℤ)), ((0 : ℤ), (1 : ℤ))] : List Cell)
      [((0 : ℤ), (0 : ℤ)), ((0 : ℤ), (1 : ℤ))] ∧
    IsPathOrd adjW [((0 : ℤ), (0 : ℤ)), ((0 : ℤ), (1 : ℤ))] ∧
    2 ≤ ([((0 : ℤ), (0 : ℤ)), ((0 : ℤ), (1 : ℤ))] : List Cell).length ∧
    ∃ (t : ℕ) (path : List Cell) (g₂ : RandS),
      cleanse stW adjW [((0 : ℤ), (0 : ℤ)), ((0 : ℤ), (1 : ℤ))] [0] =
        some (path, g₂) ∧ t ≤ 2 ∧
      (0 < min ((([((0 : ℤ), (0 : ℤ)), ((0 : ℤ), (1 : ℤ))] :
          List Cell).length : ℤ) + 1 - stW.distl) 2 →
        (t : ℤ) ≤ min ((([((0 : ℤ), (0 : ℤ)), ((0 : ℤ), (1 : ℤ))] :
          List Cell).length : ℤ) + 1 - stW.distl) 2) ∧
      (min ((([((0 : ℤ), (0 : ℤ)), ((0 : ℤ), (1 : ℤ))] :
          List Cell).length : ℤ) + 1 - stW.distl) 2 ≤ 0 → t = 0) ∧
      path.length = ([((0 : ℤ), (0 : ℤ)), ((0 : ℤ), (1 : ℤ))] :
        List Cell).length - t ∧
      ∃ ord', (ord' = ([((0 : ℤ), (0 : ℤ)), ((0 : ℤ), (1 : ℤ))] : List Cell) ∨
          ord' = ([((0 : ℤ), (0 : ℤ)), ((0 : ℤ), (1 : ℤ))] :
            List Cell).reverse) ∧
        ∃ a, path = (ord'.drop a).take
          (([((0 : ℤ), (0 : ℤ)), ((0 : ℤ), (1 : ℤ))] : List Cell).length - t) :=
  ⟨by decide, ⟨by decide, by decide⟩, by decide,
    C3_trim_corrected [0] (by decide) ⟨by decide, by decide⟩ (by decide)⟩

/-- The original C3 formula is refuted on the two-cell strand
`[(0,0), (0,1)]` with `distl = 1`: the returned path keeps both cells,
while `L - t - 1` with `0 ≤ t ≤ min(L - distl, 2)` would allow at most one
cell. -/
theorem C3_counterexample :
    (cleanse stW adjW [((0 : ℤ), (0 : ℤ)), ((0 : ℤ), (1 : ℤ))] [0]).map
      (fun pr => pr.1.length) = some 2 ∧
    ∀ t : ℤ, 0 ≤ t → t ≤ min ((2 : ℤ) - stW.distl) 2 →
      (2 : ℤ) ≠ 2 - t - 1 := by
  constructor
  · rfl
  · intro t h0 ht
    have hd : stW.distl = 1 := rfl
    rw [hd] at ht
    omega

/-- Claim C5: for every strand the builder leaves, the adjacency graph on
its cells is a simple path graph: each cell has degree at most 2, the
degree-1 endpoint filter yields exactly two distinct cells, and the walk
from the first of them through unique next-neighbours ends at the other
after visiting every cell of the strand exactly once. -/
theorem C5_strands_path_graphs {st : DifficultySettings} {g : RandS}
    {bs : BuildState} (hend : 1 ≤ st.endcl)
    (hbs : buildStrands st g = some bs) :
    ∀ strand ∈ bs.strands,
      (∀ cell ∈ strand, (bs.adj cell).length ≤ 2) ∧
      ∃ s e ord, s ≠ e ∧
        (strand.filter fun cell => (bs.adj cell).length = 1) = [s, e] ∧
        List.Perm strand ord ∧ ord.Nodup ∧
        ord.head? = some s ∧ ord.getLast? = some e ∧
        walkFrom bs.adj s e (strand.length + 1) = some (s :: ord) := by
  obtain ⟨bs₂, hbs₂, hInv, -, hall, -⟩ := buildStrands_spec hend g
  rw [hbs] at hbs₂
  have hbseq : bs₂ = bs := by
    injection hbs₂ with h2
    exact h2.symm
  rw [hbseq] at hInv hall
  intro strand hmem
  obtain ⟨ord0, hperm, hp, -⟩ := BInv_pathlike_mem hInv hmem
  obtain ⟨m, hm, hmeq⟩ := List.getElem_of_mem hmem
  have hsl : 1 < strand.length := hmeq ▸ hall m hm
  have h2 : 2 ≤ ord0.length := by
    rw [← hperm.length_eq]
    omega
  refine ⟨fun cell _ => BInv_deg_le_two hInv cell, ?_⟩
  obtain ⟨s, e, hfil, hcase⟩ := endpoints_filter hperm hp h2
  obtain ⟨ord, hord, hp2, hs2, he2, hlen2⟩ :
      ∃ ord, (ord = ord0 ∨ ord = ord0.reverse) ∧ IsPathOrd bs.adj ord ∧
        ord.head? = some s ∧ ord.getLast? = some e ∧
        ord.length = ord0.length := by
    rcases hcase with ⟨hh, ht⟩ | ⟨hh, ht⟩
    · exact ⟨ord0, Or.inl rfl, hp, hh, ht, rfl⟩
    · refine ⟨ord0.reverse, Or.inr rfl, isPathOrd_reverse hp, ?_, ?_, by simp⟩
      · rw [List.head?_reverse]
        exact ht
      · rw [List.getLast?_reverse]
        exact hh
  have hperm2 : List.Perm strand ord := by
    rcases hord with rfl | rfl
    · exact hperm
    · exact hperm.trans (List.reverse_perm _).symm
  have hse : s ≠ e := by
    intro hcontra
    exact head?_ne_getLast? hp2.1 (by omega) hs2 (hcontra ▸ he2)
  refine ⟨s, e, ord, hse, hfil, hperm2, hp2.1, hs2, he2, ?_⟩
  exact walkFrom_spec hp2 (by omega) hs2 he2 (by
    rw [hlen2, ← hperm.length_eq]
    omega)

theorem C5_witness : (1 ≤ stW.endcl) ∧
    ∃ bs, buildStrands stW [] = some bs ∧
      ∀ strand ∈ bs.strands,
        (∀ cell ∈ strand, (bs.adj cell).length ≤ 2) ∧
        ∃ s e ord, s ≠ e ∧
          (strand.filter fun cell => (bs.adj cell).length = 1) = [s, e] ∧
          List.Perm strand ord ∧ ord.Nodup ∧
          ord.head? = some s ∧ ord.getLast? = some e ∧
          walkFrom bs.adj s e (strand.length + 1) = some (s :: ord) :=
  ⟨by decide, (buildStrands stW []).get (by decide),
    (Option.some_get (by decide)).symm,
    C5_strands_path_graphs (by decide) (Option.some_get (by decide)).symm⟩

/-- Claim C6: for any settings with a nonempty grid and at least one
endpoint pair requested, the strand-building loop terminates successfully,
at exit every one of the `r * c` grid cells is assigned a strand index
(the keys of `strandi` are a permutation of the grid), and each round
performed on a not-yet-full invariant state assigns at least one more
cell. -/
theorem C6_terminates_covers {st : DifficultySettings}
    (hr : 1 ≤ st.r) (hc : 1 ≤ st.c) (hend : 1 ≤ st.endcl) (g : RandS) :
    (∃ bs, buildStrands st g = some bs ∧
      bs.strandi.length = st.r * st.c ∧
      List.Perm (keysOf bs.strandi) (gridCells st.r st.c)) ∧
    ∀ s : BuildState, BInv st.r st.c s.adj s.strands s.strandi →
      s.strandi.length < st.r * st.c →
      ∃ s', roundStep st s = some s' ∧
        s.strandi.length + 1 ≤ s'.strandi.length := by
  constructor
  · obtain ⟨bs, hbs, -, hlen, -, hkeys⟩ := buildStrands_spec hend g
    exact ⟨bs, hbs, hlen, hkeys⟩
  · intro s hInv hlt
    obtain ⟨s', hround, -, -, -, hgrow⟩ := roundStep_spec hInv
    have hun := @unassigned_nonempty st.r st.c s.strandi hlt
    refine ⟨s', hround, by omega⟩

theorem C6_witness : 1 ≤ stW.r ∧ 1 ≤ stW.c ∧ 1 ≤ stW.endcl ∧
    ((∃ bs, buildStrands stW [] = some bs ∧
      bs.strandi.length = stW.r * stW.c ∧
      List.Perm (keysOf bs.strandi) (gridCells stW.r stW.c)) ∧
    ∀ s : BuildState, BInv stW.r stW.c s.adj s.strands s.strandi →
      s.strandi.length < stW.r * stW.c →
      ∃ s', roundStep stW s = some s' ∧
        s.strandi.length + 1 ≤ s'.strandi.length) :=
  ⟨by decide, by decide, by decide,
    C6_terminates_covers (by decide) (by decide) (by decide) []⟩

/-- Claim C7 (corrected): an entry of the strand-index mapping is indeed
never changed once made — lookups are append-frozen across the whole
builder loop — and at the moment a cell is entered during growth its stored
value is the index of the strand that then owns it; but after a pruning
pass removes length-1 strands the surviving strands shift down, so the
stored value need not remain the index of the owning strand in the current
strands list (see the counterexample). -/
theorem C7_index_frozen (st : DifficultySettings) :
    (∀ (fuel : ℕ) (s s' : BuildState), buildLoop st fuel s = some s' →
      ∀ (cell : Cell) (k : ℕ), dictLookup s.strandi cell = some k →
        dictLookup s'.strandi cell = some k) ∧
    ∀ gs gs' : GrowState, BInv st.r st.c gs.adj gs.strands gs.strandi →
      InvF gs.strands gs.strandi gs.frontier →
      InvDeg gs.adj gs.frontier → gs.frontier ≠ [] →
      growStep st gs = some gs' →
      ∀ e ∈ gs'.strandi, e ∉ gs.strandi →
        e.2 < gs'.strands.length ∧ e.1 ∈ gs'.strands.getD e.2 [] := by
  constructor
  · intro fuel s s' h cell k hk
    exact dictLookup_extend (buildLoop_strandi_grows fuel h) hk
  · intro gs gs' hInv hF hD hne hstep
    obtain ⟨gs₂, hstep₂, -, -, -, -, -, hnew, -⟩ := growStep_spec hInv hF hD hne
    rw [hstep] at hstep₂
    have : gs₂ = gs' := by
      injection hstep₂ with h2
      exact h2.symm
    subst this
    exact hnew

/-- The second half of the original C7 is refuted on a 1 × 3 grid: after
the first round prunes a singleton strand, the run ends with cell `(0,0)`
still mapped to index 1 while only one strand (at index 0) remains. -/
theorem C7_counterexample :
    ∃ bs, buildStrands stW3 [1, 0, 1] = some bs ∧
      dictLookup bs.strandi ((0 : ℤ), (0 : ℤ)) = some 1 ∧
      bs.strands.length = 1 :=
  ⟨(buildStrands stW3 [1, 0, 1]).get (by decide),
    (Option.some_get (by decide)).symm, by decide, by decide⟩

/-- Claim C1: every successful result of `generate_paths` holds at most
`endcl` paths, and the paths are pairwise cell-disjoint. -/
theorem C1_count_and_disjoint {st : DifficultySettings} {fuel : ℕ}
    {g : RandS} {paths : List (List Cell)} (hend : 1 ≤ st.endcl)
    (h : generate_paths st fuel g = some paths) :
    paths.length ≤ st.endcl ∧
    List.Pairwise (fun p q : List Cell => ∀ x ∈ p, x ∉ q) paths := by
  unfold generate_paths at h
  rcases hcol : collectAcceptable st fuel st.attemptc g with _ | col
  · rw [hcol] at h
    exact Option.noConfusion h
  rw [hcol, Option.some_bind] at h
  have hP : ∀ (g0 : RandS) pr, tryGeneratingPaths st g0 = some pr →
      pr.1.length ≤ st.endcl ∧
      List.Pairwise (fun p q : List Cell => ∀ x ∈ p, x ∉ q) pr.1 := by
    intro g0 pr hpr
    obtain ⟨pr₂, hpr₂, hlen, hdisj, -⟩ := tryGeneratingPaths_spec st hend g0
    rw [hpr] at hpr₂
    have hpreq : pr₂ = pr := by
      injection hpr₂ with h2
      exact h2.symm
    subst hpreq
    exact ⟨hlen, hdisj⟩
  have hsp := collectAcceptable_spec
    (fun a => a.length ≤ st.endcl ∧
      List.Pairwise (fun p q : List Cell => ∀ x ∈ p, x ∉ q) a)
    hP fuel st.attemptc g col hcol
  exact hsp.2.2.2 paths (pymaxBy_mem quality h)

theorem C1_witness : 1 ≤ stW.endcl ∧
    generate_paths stW 1 [] =
      some [[((0 : ℤ), (1 : ℤ)), ((0 : ℤ), (0 : ℤ))]] ∧
    (([[((0 : ℤ), (1 : ℤ)), ((0 : ℤ), (0 : ℤ))]] :
        List (List Cell)).length ≤ stW.endcl ∧
      List.Pairwise (fun p q : List Cell => ∀ x ∈ p, x ∉ q)
        [[((0 : ℤ), (1 : ℤ)), ((0 : ℤ), (0 : ℤ))]]) :=
  ⟨by decide, by rfl, @C1_count_and_disjoint stW 1 []
    [[((0 : ℤ), (1 : ℤ)), ((0 : ℤ), (0 : ℤ))]] (by decide) (by rfl)⟩

/-- Claim C10: every path of a successful `generate_paths` result is a
sequence of pairwise-distinct in-grid cells whose consecutive cells differ
by one of the four `DIJS` offsets. -/
theorem C10_paths_valid {st : DifficultySettings} {fuel : ℕ} {g : RandS}
    {paths : List (List Cell)} (hend : 1 ≤ st.endcl)
    (h : generate_paths st fuel g = some paths) :
    ∀ path ∈ paths, path.Nodup ∧
      (∀ cell ∈ path, cell ∈ gridCells st.r st.c) ∧
      List.Chain' Adjacent path := by
  unfold generate_paths at h
  rcases hcol : collectAcceptable st fuel st.attemptc g with _ | col
  · rw [hcol] at h
    exact Option.noConfusion h
  rw [hcol, Option.some_bind] at h
  have hP : ∀ (g0 : RandS) pr, tryGeneratingPaths st g0 = some pr →
      ∀ path ∈ pr.1, path.Nodup ∧
        (∀ cell ∈ path, cell ∈ gridCells st.r st.c) ∧
        List.Chain' Adjacent path := by
    intro g0 pr hpr
    obtain ⟨pr₂, hpr₂, -, -, hvalid⟩ := tryGeneratingPaths_spec st hend g0
    rw [hpr] at hpr₂
    have hpreq : pr₂ = pr := by
      injection hpr₂ with h2
      exact h2.symm
    subst hpreq
    exact hvalid
  have hsp := collectAcceptable_spec
    (fun a => ∀ path ∈ a, path.Nodup ∧
      (∀ cell ∈ path, cell ∈ gridCells st.r st.c) ∧
      List.Chain' Adjacent path)
    hP fuel st.attemptc g col hcol
  exact hsp.2.2.2 paths (pymaxBy_mem quality h)

theorem C10_witness : 1 ≤ stW.endcl ∧
    generate_paths stW 1 [] =
      some [[((0 : ℤ), (1 : ℤ)), ((0 : ℤ), (0 : ℤ))]] ∧
    ∀ path ∈ ([[((0 : ℤ), (1 : ℤ)), ((0 : ℤ), (0 : ℤ))]] :
        List (List Cell)), path.Nodup ∧
      (∀ cell ∈ path, cell ∈ gridCells stW.r stW.c) ∧
      List.Chain' Adjacent path :=
  ⟨by decide, by rfl, @C10_paths_valid stW 1 []
    [[((0 : ℤ), (1 : ℤ)), ((0 : ℤ), (0 : ℤ))]] (by decide) (by rfl)⟩

/-- Claim C2: the acceptance loop collects exactly `attemptc` acceptable
attempts — the first `attemptc` acceptable members of the attempt stream,
rejected attempts being passed over without counting — and `generate_paths`
returns the collected attempt of maximal quality, ties broken in favour of
the earliest. -/
theorem C2_exactly_attemptc_best {st : DifficultySettings} {fuel : ℕ}
    {g : RandS} {col : List (List (List Cell)) × RandS}
    (hatt : 1 ≤ st.attemptc)
    (hcol : collectAcceptable st fuel st.attemptc g = some col) :
    col.1.length = st.attemptc ∧
    col.1 = ((attemptStream st fuel g).filter fun a =>
      acceptable st a).take st.attemptc ∧
    (∀ x ∈ col.1, acceptable st x = true) ∧
    ∃ (paths : List (List Cell)) (i : ℕ) (hi : i < col.1.length),
      generate_paths st fuel g = some paths ∧
      col.1.get ⟨i, hi⟩ = paths ∧
      (∀ (j : ℕ) (hj : j < col.1.length),
        quality (col.1.get ⟨j, hj⟩) ≤ quality paths) ∧
      ∀ (j : ℕ) (hj : j < col.1.length), j < i →
        quality (col.1.get ⟨j, hj⟩) < quality paths := by
  obtain ⟨hlen, hfil, hacc, -⟩ := collectAcceptable_spec (fun _ => True)
    (fun _ _ _ => trivial) fuel st.attemptc g col hcol
  refine ⟨hlen, hfil, hacc, ?_⟩
  have hne : col.1 ≠ [] := by
    intro hnil
    rw [hnil] at hlen
    simp at hlen
    omega
  obtain ⟨b, t, hbt⟩ := List.exists_cons_of_ne_nil hne
  have hmax : pymaxBy quality col.1 = some (t.foldl
      (fun best x => if quality best < quality x then x else best) b) := by
    rw [hbt]
    rfl
  obtain ⟨i, hi, hieq, hmaxj, hstrict⟩ := pymaxBy_spec quality hmax
  refine ⟨_, i, hi, ?_, hieq, hmaxj, hstrict⟩
  unfold generate_paths
  rw [hcol, Option.some_bind, hmax]

theorem C2_witness : 1 ≤ stW.attemptc ∧ ∃ col,
    collectAcceptable stW 1 stW.attemptc [] = some col ∧
    (col.1.length = stW.attemptc ∧
      col.1 = ((attemptStream stW 1 []).filter fun a =>
        acceptable stW a).take stW.attemptc ∧
      (∀ x ∈ col.1, acceptable stW x = true) ∧
      ∃ (paths : List (List Cell)) (i : ℕ) (hi : i < col.1.length),
        generate_paths stW 1 [] = some paths ∧
        col.1.get ⟨i, hi⟩ = paths ∧
        (∀ (j : ℕ) (hj : j < col.1.length),
          quality (col.1.get ⟨j, hj⟩) ≤ quality paths) ∧
        ∀ (j : ℕ) (hj : j < col.1.length), j < i →
          quality (col.1.get ⟨j, hj⟩) < quality paths) :=
  ⟨by decide, ([[[((0 : ℤ), (1 : ℤ)), ((0 : ℤ), (0 : ℤ))]]], []), rfl,
    C2_exactly_attemptc_best (by decide) rfl⟩

/-- Claim C8: per attempt the surviving strands are fully shuffled, then
stably sorted by descending length (the sort is a permutation, descending,
and stable — equal-length order is the shuffle's), exactly the first
`endcl` of them (all, if fewer survive) are cleansed — every kept strand at
least as long as every discarded one — and the resulting list of paths is
shuffled before being returned. -/
theorem C8_longest_cleansed_shuffled (st : DifficultySettings)
    (hend : 1 ≤ st.endcl) (g : RandS) :
    ∃ bs cl g₂,
      buildStrands st g = some bs ∧
      List.Perm (pyShuffle bs.g bs.strands).1 bs.strands ∧
      List.Perm (sortLenDesc (pyShuffle bs.g bs.strands).1)
        (pyShuffle bs.g bs.strands).1 ∧
      List.Pairwise (fun x y : List Cell => y.length ≤ x.length)
        (sortLenDesc (pyShuffle bs.g bs.strands).1) ∧
      (∀ k, (sortLenDesc (pyShuffle bs.g bs.strands).1).filter
          (fun s => s.length = k) =
        (pyShuffle bs.g bs.strands).1.filter fun s => s.length = k) ∧
      (∀ x ∈ (sortLenDesc (pyShuffle bs.g bs.strands).1).take st.endcl,
        ∀ y ∈ (sortLenDesc (pyShuffle bs.g bs.strands).1).drop st.endcl,
          y.length ≤ x.length) ∧
      cleanseAll st bs.adj
        ((sortLenDesc (pyShuffle bs.g bs.strands).1).take st.endcl)
        (pyShuffle bs.g bs.strands).2 = some (cl, g₂) ∧
      cl.length = min st.endcl bs.strands.length ∧
      tryGeneratingPaths st g = some (pyShuffle g₂ cl) ∧
      List.Perm (pyShuffle g₂ cl).1 cl := by
  obtain ⟨bs, hbs, hInv, -, hall, -⟩ := buildStrands_spec hend g
  have hperm1 : List.Perm (pyShuffle bs.g bs.strands).1 bs.strands :=
    pyShuffle_perm _ _
  have hperm2 : List.Perm (sortLenDesc (pyShuffle bs.g bs.strands).1)
      bs.strands := (sortLenDesc_perm _).trans hperm1
  have htakesub : (sortLenDesc (pyShuffle bs.g bs.strands).1).take st.endcl ⊆
      bs.strands := fun x hx => hperm2.subset (List.take_subset _ _ hx)
  have hprep : ∀ s ∈ (sortLenDesc (pyShuffle bs.g bs.strands).1).take st.endcl,
      ∃ ord, List.Perm s ord ∧ IsPathOrd bs.adj ord ∧
        List.Chain' Adjacent ord ∧ 2 ≤ ord.length := by
    intro s hs
    have hsmem := htakesub hs
    obtain ⟨ord, hperm, hp, hchain⟩ := BInv_pathlike_mem hInv hsmem
    obtain ⟨m, hm, hmeq⟩ := List.getElem_of_mem hsmem
    have h2 : 1 < s.length := hmeq ▸ hall m hm
    exact ⟨ord, hperm, hp, hchain, by
      rw [← hperm.length_eq]
      omega⟩
  obtain ⟨cl, g₂, hclall, hcllen, -⟩ := cleanseAll_spec st bs.adj
    ((sortLenDesc (pyShuffle bs.g bs.strands).1).take st.endcl)
    (pyShuffle bs.g bs.strands).2 hprep
  refine ⟨bs, cl, g₂, hbs, hperm1, sortLenDesc_perm _, sortLenDesc_sorted _,
    sortLenDesc_stable _, ?_, hclall, ?_, ?_, pyShuffle_perm _ _⟩
  · have hsorted := sortLenDesc_sorted (pyShuffle bs.g bs.strands).1
    rw [← List.take_append_drop st.endcl
      (sortLenDesc (pyShuffle bs.g bs.strands).1)] at hsorted
    exact (List.pairwise_append.mp hsorted).2.2
  · rw [hcllen, List.length_take, (sortLenDesc_perm _).length_eq,
      hperm1.length_eq]
  · unfold tryGeneratingPaths
    rw [hbs]
    show (cleanseAll st bs.adj
      ((sortLenDesc (pyShuffle bs.g bs.strands).1).take st.endcl)
      (pyShuffle bs.g bs.strands).2).map (fun pr => pyShuffle pr.2 pr.1) = _
    rw [hclall]
    rfl

theorem C8_witness : 1 ≤ stW.endcl ∧
    ∃ bs cl g₂,
      buildStrands stW [] = some bs ∧
      List.Perm (pyShuffle bs.g bs.strands).1 bs.strands ∧
      List.Perm (sortLenDesc (pyShuffle bs.g bs.strands).1)
        (pyShuffle bs.g bs.strands).1 ∧
      List.Pairwise (fun x y : List Cell => y.length ≤ x.length)
        (sortLenDesc (pyShuffle bs.g bs.strands).1) ∧
      (∀ k, (sortLenDesc (pyShuffle bs.g bs.strands).1).filter
          (fun s => s.length = k) =
        (pyShuffle bs.g bs.strands).1.filter fun s => s.length = k) ∧
      (∀ x ∈ (sortLenDesc (pyShuffle bs.g bs.strands).1).take stW.endcl,
        ∀ y ∈ (sortLenDesc (pyShuffle bs.g bs.strands).1).drop stW.endcl,
          y.length ≤ x.length) ∧
      cleanseAll stW bs.adj
        ((sortLenDesc (pyShuffle bs.g bs.strands).1).take stW.endcl)
        (pyShuffle bs.g bs.strands).2 = some (cl, g₂) ∧
      cl.length = min stW.endcl bs.strands.length ∧
      tryGeneratingPaths stW [] = some (pyShuffle g₂ cl) ∧
      List.Perm (pyShuffle g₂ cl).1 cl :=
  ⟨by decide, C8_longest_cleansed_shuffled stW (by decide) []⟩
